import Mathlib

/-!
TaskManager: task helpers and collection controller

A shallow embedding of `src/utils/taskHelpers.js`, `src/utils/storage.js` and of the
mutation handlers of `src/App.js`, followed by theorems about filtering, searching,
sorting, the completion invariant, the temporal predicates, the mutations,
persistence and the task form of `src/components/TaskForm.js`.

Modelling conventions

* A date string is represented by the time value of the `Date` object built from it:
  epoch milliseconds, or `none` when the string does not parse (Invalid Date, whose
  numeric value is NaN).  A nullable date field adds an outer `Option`, `none` being
  `null`.
* A comparator returns a JavaScript number.  Only its sign and whether it is NaN
  matter to `Array.prototype.sort`, so it is an `Option Int` with `none` for NaN.
  Differences of time values are exact integers up to rounding that keeps sign and
  zero, so `Int` subtraction is faithful for the sort.
* `Array.prototype.sort` is a stable sort that reads a NaN comparator result as `+0`.
  It is modelled by stable insertion.
* `String.prototype.toLowerCase` and `String.prototype.localeCompare` belong to the
  JavaScript runtime; they are fields of `Runtime`.
* The `Date` methods that read or set local fields go through the time zone of the
  runtime, a `TimeZone`.  Time values are unbounded integers: the limit of 8.64e15
  milliseconds on either side of the epoch is not modelled.
* `AsyncStorage` is the item stored under the key of the application, with a flag that
  tells whether the call resolves or rejects; `JSON.stringify` and `JSON.parse` are the
  fields of a `JsonCodec`.
-/

namespace TaskManager

/-! ## Data model -/

/-- Time value of a `Date` object: epoch milliseconds, `none` for an Invalid Date. -/
abbrev TimeValue := Option Int

/-- A JavaScript number produced by a comparator: an integer, `none` for NaN. -/
abbrev JsNumber := Option Int

/-- The task record built by `createTask`. -/
structure Task where
  id : String
  title : String
  description : String
  completed : Bool
  priority : String
  dueDate : Option TimeValue
  createdAt : TimeValue
  completedAt : Option TimeValue
deriving DecidableEq, Repr

/-- The object `taskData` assembled by `handleSave` in `TaskForm.js`. -/
structure TaskData where
  title : String
  description : String
  priority : String
  dueDate : Option TimeValue
deriving DecidableEq, Repr

/-- The two string operations supplied by the JavaScript runtime. -/
structure Runtime where
  toLowerCase : String → String
  localeCompare : String → String → Int

/-! ## JavaScript primitives -/

/-- Code points removed by `String.prototype.trim`: WhiteSpace and LineTerminator. -/
def isTrimChar (c : Char) : Bool :=
  let n := c.toNat
  n == 0x9 || n == 0xA || n == 0xB || n == 0xC || n == 0xD || n == 0x20 || n == 0xA0 ||
  n == 0x1680 || (0x2000 ≤ n && n ≤ 0x200A) || n == 0x2028 || n == 0x2029 ||
  n == 0x202F || n == 0x205F || n == 0x3000 || n == 0xFEFF

/-- Embedding of `String.prototype.trim`. -/
def trim (s : String) : String :=
  ⟨((s.data.dropWhile isTrimChar).reverse.dropWhile isTrimChar).reverse⟩

/-- Whether `q` occurs in `s` as a contiguous block, scanning start positions left to right. -/
def includesChars (s q : List Char) : Bool :=
  match s with
  | [] => q.isEmpty
  | c :: t => q.isPrefixOf (c :: t) || includesChars t q

/-- Embedding of `String.prototype.includes`. -/
def includes (s q : String) : Bool := includesChars s.data q.data

/-- Subtraction of two JavaScript numbers, NaN when either is NaN. -/
def numSub (x y : JsNumber) : JsNumber :=
  match x, y with
  | some a, some b => some (a - b)
  | _, _ => none

/-- The value `new Date(x) - new Date(y)`. -/
def dateDiff (x y : TimeValue) : JsNumber := numSub x y

/-- One day in milliseconds. -/
def dayMs : Int := 86400000

/-- One hour in milliseconds. -/
def msPerHour : Int := 3600000

/-- One minute in milliseconds. -/
def msPerMinute : Int := 60000

/-- The local time zone of the runtime, given by the two readings of the UTC offset
that the `Date` methods use: the offset in force at an instant, and the offset applied
to a local time value when it is turned back into an instant. -/
structure TimeZone where
  offsetAtInstant : Int → Int
  offsetAtLocal : Int → Int

/-- Local time value of the instant `t`. -/
def localTime (tz : TimeZone) (t : Int) : Int := t + tz.offsetAtInstant t

/-- The instant whose local time value is `t`. -/
def utcOfLocal (tz : TimeZone) (t : Int) : Int := t - tz.offsetAtLocal t

/-- Embedding of `Date.prototype.getHours`, NaN on an Invalid Date. -/
def getHours (tz : TimeZone) (date : TimeValue) : JsNumber :=
  date.map (fun t => (localTime tz t / msPerHour) % 24)

/-- Embedding of `Date.prototype.getMinutes`, NaN on an Invalid Date. -/
def getMinutes (tz : TimeZone) (date : TimeValue) : JsNumber :=
  date.map (fun t => (localTime tz t / msPerMinute) % 60)

/-- Embedding of `date.setHours(hour, min, sec, ms)`: the local day of `date` with
the given time within the day. -/
def setHours (tz : TimeZone) (date : TimeValue) (hour min sec ms : Int) : TimeValue :=
  date.map (fun t =>
    utcOfLocal tz
      (localTime tz t / dayMs * dayMs + (hour * msPerHour + min * msPerMinute + sec * 1000 + ms)))

/-- Embedding of `date.setDate(date.getDate() + n)`: the local calendar day moves by
`n` days and the local time within the day is kept. -/
def addCalendarDays (tz : TimeZone) (date : TimeValue) (n : Int) : TimeValue :=
  date.map (fun t => utcOfLocal tz (localTime tz t + n * dayMs))

/-- Embedding of `Date.prototype.toDateString`.  The text names the local calendar
day and nothing else, so it is represented by the local day number; `none` is the text
of an Invalid Date. -/
def toDateString (tz : TimeZone) (date : TimeValue) : Option Int :=
  date.map (fun t => localTime tz t / dayMs)

/-- The comparison `x < y` of two `Date` objects, false when either is invalid. -/
def dateLt (x y : TimeValue) : Bool :=
  match x, y with
  | some a, some b => decide (a < b)
  | _, _ => false

/-- The comparison `x <= y` of two `Date` objects, false when either is invalid. -/
def dateLe (x y : TimeValue) : Bool :=
  match x, y with
  | some a, some b => decide (a ≤ b)
  | _, _ => false

/-- Placement of `a` by the sort: before the first `b` with `cmp a b ≤ 0`, NaN read as `+0`. -/
def orderedInsert {α : Type} (cmp : α → α → JsNumber) (a : α) : List α → List α
  | [] => [a]
  | b :: l => if (cmp a b).getD 0 ≤ 0 then a :: b :: l else b :: orderedInsert cmp a l

/-- Embedding of `[...tasks].sort(cmp)`: a stable sort by the comparator `cmp`. -/
def jsSort {α : Type} (cmp : α → α → JsNumber) : List α → List α
  | [] => []
  | a :: l => orderedInsert cmp a (jsSort cmp l)

/-! ## `taskHelpers.js` -/

/-- Embedding of `createTask`; an argument `none` is an omitted argument, which takes its default.
`id` is the result of `generateTaskId()` and `now` the instant of `new Date()`. -/
def createTask (id : String) (now : Int) (title : String) (description : Option String)
    (dueDate : Option (Option TimeValue)) (priority : Option String) : Task :=
  { id := id
    title := trim title
    description := trim (description.getD "")
    completed := false
    priority := priority.getD "medium"
    dueDate := dueDate.getD none
    createdAt := some now
    completedAt := none }

/-- Embedding of `filterTasks`. -/
def filterTasks (tasks : List Task) (filter : String) : List Task :=
  if filter = "active" then tasks.filter (fun task => !task.completed)
  else if filter = "completed" then tasks.filter (fun task => task.completed)
  else tasks

/-- Embedding of `searchTasks`. -/
def searchTasks (rt : Runtime) (tasks : List Task) (searchQuery : String) : List Task :=
  if trim searchQuery = "" then tasks
  else
    let query := rt.toLowerCase searchQuery
    tasks.filter (fun task =>
      includes (rt.toLowerCase task.title) query ||
      includes (rt.toLowerCase task.description) query)

/-- The lookup `priorityOrder[p]` in `{ high: 3, medium: 2, low: 1 }`; any other key
gives a value whose difference with a number is NaN. -/
def priorityOrder (p : String) : JsNumber :=
  if p = "high" then some 3
  else if p = "medium" then some 2
  else if p = "low" then some 1
  else none

/-- Comparator of `sortTasks`. -/
def smartCompare (a b : Task) : JsNumber :=
  if a.completed != b.completed then
    if a.completed then some 1 else some (-1)
  else
    let priorityDiff := numSub (priorityOrder b.priority) (priorityOrder a.priority)
    if priorityDiff != some 0 then priorityDiff
    else
      match a.dueDate, b.dueDate with
      | some da, some db => dateDiff da db
      | some _, none => some (-1)
      | none, some _ => some 1
      | none, none => dateDiff b.createdAt a.createdAt

/-- Comparator of `sortTasksByPriority`. -/
def priorityCompare (a b : Task) : JsNumber :=
  if a.completed != b.completed then
    if a.completed then some 1 else some (-1)
  else
    let priorityDiff := numSub (priorityOrder b.priority) (priorityOrder a.priority)
    if priorityDiff != some 0 then priorityDiff
    else dateDiff b.createdAt a.createdAt

/-- Comparator of `sortTasksByDueDate`. -/
def dueDateCompare (a b : Task) : JsNumber :=
  if a.completed != b.completed then
    if a.completed then some 1 else some (-1)
  else
    match a.dueDate, b.dueDate with
    | some _, none => some (-1)
    | none, some _ => some 1
    | some da, some db =>
      let dateComparison := dateDiff da db
      if dateComparison != some 0 then dateComparison
      else dateDiff b.createdAt a.createdAt
    | none, none => dateDiff b.createdAt a.createdAt

/-- Comparator of `sortTasksAlphabetically`. -/
def alphabeticalCompare (rt : Runtime) (a b : Task) : JsNumber :=
  if a.completed != b.completed then
    if a.completed then some 1 else some (-1)
  else
    some (rt.localeCompare (rt.toLowerCase a.title) (rt.toLowerCase b.title))

/-- Comparator of `sortTasksByCreated`. -/
def createdCompare (a b : Task) : JsNumber :=
  if a.completed != b.completed then
    if a.completed then some 1 else some (-1)
  else dateDiff b.createdAt a.createdAt

/-- Embedding of `sortTasks` (smart sort). -/
def sortTasks (tasks : List Task) : List Task := jsSort smartCompare tasks

/-- Embedding of `sortTasksByPriority`. -/
def sortTasksByPriority (tasks : List Task) : List Task := jsSort priorityCompare tasks

/-- Embedding of `sortTasksByDueDate`. -/
def sortTasksByDueDate (tasks : List Task) : List Task := jsSort dueDateCompare tasks

/-- Embedding of `sortTasksAlphabetically`. -/
def sortTasksAlphabetically (rt : Runtime) (tasks : List Task) : List Task :=
  jsSort (alphabeticalCompare rt) tasks

/-- Embedding of `sortTasksByCreated`. -/
def sortTasksByCreated (tasks : List Task) : List Task := jsSort createdCompare tasks

/-- Embedding of `sortTasksBy`. -/
def sortTasksBy (rt : Runtime) (tasks : List Task) (sortBy : String) : List Task :=
  if sortBy = "priority" then sortTasksByPriority tasks
  else if sortBy = "dueDate" then sortTasksByDueDate tasks
  else if sortBy = "alphabetical" then sortTasksAlphabetically rt tasks
  else if sortBy = "created" then sortTasksByCreated tasks
  else sortTasks tasks

/-- Embedding of `isTaskOverdue`, `now` being the instant of `new Date()`. -/
def isTaskOverdue (tz : TimeZone) (task : Task) (now : Int) : Bool :=
  match task.dueDate with
  | none => false
  | some dueDate =>
    if task.completed then false
    else
      let hasSpecificTime := getHours tz dueDate != some 0 || getMinutes tz dueDate != some 0
      if hasSpecificTime then dateLt dueDate (some now)
      else
        let dueDateEndOfDay := setHours tz dueDate 23 59 59 999
        dateLt dueDateEndOfDay (some now)

/-- Embedding of `isTaskDueToday`. -/
def isTaskDueToday (tz : TimeZone) (task : Task) (now : Int) : Bool :=
  match task.dueDate with
  | none => false
  | some dueDate =>
    if task.completed then false
    else toDateString tz dueDate == toDateString tz (some now)

/-- Embedding of `isTaskDueSoon`. -/
def isTaskDueSoon (tz : TimeZone) (task : Task) (now : Int) : Bool :=
  match task.dueDate with
  | none => false
  | some dueDate =>
    if task.completed then false
    else
      let threeDaysFromNow := addCalendarDays tz (some now) 3
      dateLe (some now) dueDate && dateLe dueDate threeDaysFromNow

/-- Embedding of `taskHasTime`. -/
def taskHasTime (tz : TimeZone) (task : Task) : Bool :=
  match task.dueDate with
  | none => false
  | some date => getHours tz date != some 0 || getMinutes tz date != some 0

/-- The value `Math.ceil(diffMs / (1000 * 60 * 60 * 24))`.  The quotient of two
integers of the size of time values is an integer in floating point only when it is one
exactly, so the result is the integer ceiling of the exact quotient. -/
def ceilDays (diffMs : Int) : Int := -((-diffMs) / dayMs)

/-- Embedding of `getTimeUntilDue`, `now` being the instant of `new Date()`.  An
invalid due date makes every comparison false and is printed as `NaN`. -/
def getTimeUntilDue (task : Task) (now : Int) : String :=
  match task.dueDate with
  | none => ""
  | some dueDate =>
    let diffMs := dateDiff dueDate (some now)
    match diffMs with
    | none => "Due in NaN days"
    | some ms =>
      let diffDays := ceilDays ms
      if diffDays < 0 then
        let overdueDays := diffDays.natAbs
        let dayText := if overdueDays = 1 then "" else "s"
        toString overdueDays ++ " day" ++ dayText ++ " overdue"
      else if diffDays = 0 then "Due today"
      else if diffDays = 1 then "Due tomorrow"
      else "Due in " ++ toString diffDays ++ " days"

/-! ## `App.js` -/

/-- The counts object returned by `getTaskCounts`. -/
structure TaskCounts where
  all : Nat
  active : Nat
  completed : Nat
deriving DecidableEq, Repr

/-- Embedding of `getTaskCounts`. -/
def getTaskCounts (tasks : List Task) : TaskCounts :=
  { all := tasks.length
    active := (tasks.filter (fun task => !task.completed)).length
    completed := (tasks.filter (fun task => task.completed)).length }

/-- Embedding of `updateFilteredTasks`: the displayed list, which is the filter, then
the search, then the sort of the collection. -/
def updateFilteredTasks (rt : Runtime) (tasks : List Task)
    (activeFilter searchQuery sortBy : String) : List Task :=
  let filtered := filterTasks tasks activeFilter
  let filtered := searchTasks rt filtered searchQuery
  sortTasksBy rt filtered sortBy

/-- Collection computed by `handleAddTask`. -/
def handleAddTask (tasks : List Task) (id : String) (now : Int) (taskData : TaskData) :
    List Task :=
  createTask id now taskData.title (some taskData.description) (some taskData.dueDate)
    (some taskData.priority) :: tasks

/-- Collection computed by `handleEditTask`, `editingId` being `editingTask.id`. -/
def handleEditTask (tasks : List Task) (editingId : String) (taskData : TaskData) : List Task :=
  tasks.map (fun task =>
    if task.id = editingId then
      { task with
        title := taskData.title
        description := taskData.description
        priority := taskData.priority
        dueDate := taskData.dueDate
        completedAt := if task.completed then task.completedAt else none }
    else task)

/-- Collection computed by `handleToggleComplete` at the instant `now`. -/
def handleToggleComplete (tasks : List Task) (taskId : String) (now : Int) : List Task :=
  tasks.map (fun task =>
    if task.id = taskId then
      { task with
        completed := !task.completed
        completedAt := if !task.completed then some (some now) else none }
    else task)

/-- Collection computed by `handleDeleteTask`. -/
def handleDeleteTask (tasks : List Task) (taskId : String) : List Task :=
  tasks.filter (fun task => task.id != taskId)

/-- Collection left by `handleClearCompleted`; `confirmed` is the user's answer to the
confirmation dialog, which is not shown when no task is completed. -/
def handleClearCompleted (tasks : List Task) (confirmed : Bool) : List Task :=
  let completedCount := (tasks.filter (fun task => task.completed)).length
  if completedCount = 0 then tasks
  else if confirmed then tasks.filter (fun task => !task.completed)
  else tasks

/-- A mutation of the collection together with the values it reads from the environment. -/
inductive Mutation where
  | add (id : String) (now : Int) (taskData : TaskData)
  | edit (editingId : String) (taskData : TaskData)
  | toggleComplete (taskId : String) (now : Int)
  | delete (taskId : String)
  | clearCompleted (confirmed : Bool)
deriving Repr

/-- The collection after one mutation. -/
def applyMutation (tasks : List Task) : Mutation → List Task
  | .add id now taskData => handleAddTask tasks id now taskData
  | .edit editingId taskData => handleEditTask tasks editingId taskData
  | .toggleComplete taskId now => handleToggleComplete tasks taskId now
  | .delete taskId => handleDeleteTask tasks taskId
  | .clearCompleted confirmed => handleClearCompleted tasks confirmed

/-- The collection after a sequence of mutations, applied in order. -/
def applyMutations (tasks : List Task) (ms : List Mutation) : List Task :=
  ms.foldl applyMutation tasks

/-- The alert raised by `handleClearCompleted`: either the notice that nothing is
completed, or the confirmation dialog, whose message carries `completedCount`. -/
inductive ClearAlert where
  | noCompletedTasks
  | confirmClear (completedCount : Nat)
deriving DecidableEq, Repr

/-- What `handleClearCompleted` does: the alert it raises, the collection afterwards,
and the argument of `saveTasksToStorage`, `none` when it is not called. -/
structure ClearEffect where
  alert : ClearAlert
  tasks : List Task
  saved : Option (List Task)
deriving DecidableEq, Repr

/-- Embedding of `handleClearCompleted` with its effects; `confirmed` is the user's
answer to the confirmation dialog. -/
def handleClearCompletedEffect (tasks : List Task) (confirmed : Bool) : ClearEffect :=
  let completedCount := (tasks.filter (fun task => task.completed)).length
  if completedCount = 0 then
    { alert := .noCompletedTasks, tasks := tasks, saved := none }
  else if confirmed then
    let updatedTasks := tasks.filter (fun task => !task.completed)
    { alert := .confirmClear completedCount, tasks := updatedTasks, saved := some updatedTasks }
  else
    { alert := .confirmClear completedCount, tasks := tasks, saved := none }

/-! ## `TaskForm.js` -/

/-- The state of the task form that `handleSave` reads; `selectedDate` is the time
value of a valid `Date`. -/
structure FormState where
  title : String
  description : String
  priority : String
  selectedDate : Int
  hasDate : Bool
  hasTime : Bool
deriving DecidableEq, Repr

/-- What `handleSave` does: whether it raises the alert 'Please enter a task title',
and the argument of `onSave`, `none` when the callback is not invoked. -/
structure FormSaveEffect where
  titleAlert : Bool
  onSave : Option TaskData
deriving DecidableEq, Repr

/-- Embedding of `handleSave` of the task form.  `toISOString` writes the instant of
a valid `Date` with its milliseconds, so the due date is that instant. -/
def handleSave (tz : TimeZone) (form : FormState) : FormSaveEffect :=
  let trimmedTitle := trim form.title
  if trimmedTitle = "" then
    { titleAlert := true, onSave := none }
  else
    let finalDueDate : Option TimeValue :=
      if form.hasDate then
        let dateToSave : TimeValue := some form.selectedDate
        if !form.hasTime then some (setHours tz dateToSave 0 0 0 0) else some dateToSave
      else none
    { titleAlert := false
      onSave := some
        { title := trimmedTitle
          description := trim form.description
          priority := form.priority
          dueDate := finalDueDate } }

/-- Embedding of `handleTaskFormSubmit` of `App.js`, the `onSave` callback of the form:
`editingTask` is the task being edited, `none` when the form adds a task. -/
def handleTaskFormSubmit (tasks : List Task) (editingTask : Option Task) (id : String)
    (now : Int) (taskData : TaskData) : List Task :=
  match editingTask with
  | some task => handleEditTask tasks task.id taskData
  | none => handleAddTask tasks id now taskData

/-- The collection after the save button of the form has been pressed. -/
def collectionAfterSave (tz : TimeZone) (tasks : List Task) (editingTask : Option Task)
    (id : String) (now : Int) (form : FormState) : List Task :=
  match (handleSave tz form).onSave with
  | none => tasks
  | some taskData => handleTaskFormSubmit tasks editingTask id now taskData

/-! ## `storage.js` -/

/-- The functions `JSON.stringify` and `JSON.parse` on task collections; `parse` is
`none` when it throws. -/
structure JsonCodec where
  stringify : List Task → String
  parse : String → Option (List Task)

/-- How an awaited promise settles for its caller. -/
inductive Settled (α : Type) where
  | resolved (value : α)
  | rejected
deriving DecidableEq, Repr

/-- What `saveTasks` does: the item kept under `TASKS_KEY` afterwards (`none` when no
item is stored), how the returned promise settles, and whether `console.error` ran. -/
structure SaveEffect where
  stored : Option String
  settled : Settled Unit
  errorLogged : Bool
deriving DecidableEq, Repr

/-- Embedding of `saveTasks`.  `writeSucceeds` tells whether `AsyncStorage.setItem`
resolves; a rejected write is taken to leave the stored item as it was. -/
def saveTasks (json : JsonCodec) (writeSucceeds : Bool) (stored : Option String)
    (tasks : List Task) : SaveEffect :=
  if writeSucceeds then
    { stored := some (json.stringify tasks), settled := .resolved (), errorLogged := false }
  else
    { stored := stored, settled := .resolved (), errorLogged := true }

/-- Embedding of `loadTasks`.  `readSucceeds` tells whether `AsyncStorage.getItem`
resolves; an absent item and the empty string are falsy. -/
def loadTasks (json : JsonCodec) (readSucceeds : Bool) (stored : Option String) : List Task :=
  if readSucceeds then
    match stored with
    | none => []
    | some tasksJson =>
      if tasksJson = "" then []
      else
        match json.parse tasksJson with
        | some tasks => tasks
        | none => []
  else []

/-- What `saveTasksToStorage` of `App.js` does: the stored item afterwards and whether
the alert 'Failed to save tasks' is shown. -/
structure SaveNotice where
  stored : Option String
  failureAlert : Bool
deriving DecidableEq, Repr

/-- Embedding of `saveTasksToStorage`: the alert is raised in the `catch` branch, which
runs when the awaited `saveTasks` rejects. -/
def saveTasksToStorage (json : JsonCodec) (writeSucceeds : Bool) (stored : Option String)
    (updatedTasks : List Task) : SaveNotice :=
  let effect := saveTasks json writeSucceeds stored updatedTasks
  match effect.settled with
  | .resolved _ => { stored := effect.stored, failureAlert := false }
  | .rejected => { stored := effect.stored, failureAlert := true }

/-! ## Specification vocabulary -/

/-- The completion invariant of the data model: `completed` holds exactly when
`completedAt` is present. -/
def CompletionInvariant (t : Task) : Prop :=
  t.completed = true ↔ t.completedAt ≠ none

instance (t : Task) : Decidable (CompletionInvariant t) :=
  inferInstanceAs (Decidable (_ ↔ _))

/-- The priority is one of the three levels of the data model. -/
def Task.ValidPriority (t : Task) : Prop :=
  t.priority = "low" ∨ t.priority = "medium" ∨ t.priority = "high"

/-- The creation timestamp parses to an instant. -/
def Task.ValidCreated (t : Task) : Prop := t.createdAt ≠ none

/-- The due date, when present, parses to an instant. -/
def Task.ValidDue (t : Task) : Prop := t.dueDate ≠ some none

/-- A task with a priority in `{low, medium, high}` and valid timestamps. -/
def Task.WellFormed (t : Task) : Prop :=
  t.ValidPriority ∧ t.ValidCreated ∧ t.ValidDue

instance (t : Task) : Decidable t.ValidPriority :=
  inferInstanceAs (Decidable (_ ∨ _ ∨ _))

instance (t : Task) : Decidable t.ValidCreated :=
  inferInstanceAs (Decidable (_ ≠ _))

instance (t : Task) : Decidable t.ValidDue :=
  inferInstanceAs (Decidable (_ ≠ _))

instance (t : Task) : Decidable t.WellFormed :=
  inferInstanceAs (Decidable (_ ∧ _ ∧ _))

/-- Numeric rank of the priority under `high = 3`, `medium = 2`, `low = 1`. -/
def priorityRank (t : Task) : Int := (priorityOrder t.priority).getD 0

/-- The text `s` contains the query `q` when both are compared in lower case. -/
def ContainsIgnoringCase (rt : Runtime) (s q : String) : Prop :=
  (rt.toLowerCase q).data <:+: (rt.toLowerCase s).data

/-- The comparator decides by completion state before anything else. -/
def Stratifies (cmp : Task → Task → JsNumber) : Prop :=
  ∀ a b : Task, a.completed ≠ b.completed →
    cmp a b = if a.completed then some 1 else some (-1)

/-- The comparator places `a` no later than `b`. -/
def NotAfter (cmp : Task → Task → JsNumber) (a b : Task) : Prop :=
  (cmp a b).getD 0 ≤ 0

/-- Order of two tasks of one completion state in smart mode, up to the due date. -/
def SmartOrdered (x y : Task) : Prop :=
  x.completed = y.completed →
    priorityRank y ≤ priorityRank x ∧
    (priorityRank x = priorityRank y → ¬ (x.dueDate = none ∧ y.dueDate ≠ none)) ∧
    (priorityRank x = priorityRank y →
      ∀ dx dy : Int, x.dueDate = some (some dx) → y.dueDate = some (some dy) → dx ≤ dy)

/-- Order of two tasks of one completion state in `dueDate` mode. -/
def DueDateOrdered (x y : Task) : Prop :=
  x.completed = y.completed →
    ¬ (x.dueDate = none ∧ y.dueDate ≠ none) ∧
    (∀ dx dy : Int, x.dueDate = some (some dx) → y.dueDate = some (some dy) → dx ≤ dy) ∧
    (x.dueDate = y.dueDate →
      ∀ cx cy : Int, x.createdAt = some cx → y.createdAt = some cy → cy ≤ cx)

/-- Order of two tasks of one completion state in `priority` mode. -/
def PriorityOrdered (x y : Task) : Prop :=
  x.completed = y.completed →
    priorityRank y ≤ priorityRank x ∧
    (priorityRank x = priorityRank y →
      ∀ cx cy : Int, x.createdAt = some cx → y.createdAt = some cy → cy ≤ cx)

/-- The attributes of the three tasks of the smart-sort scenario, `now` being the
instant from which the due dates are counted. -/
def SmartScenario (now : Int) (A B C : Task) : Prop :=
  A.completed = false ∧ B.completed = false ∧ C.completed = false ∧
  A.priority = "high" ∧ B.priority = "high" ∧ C.priority = "low" ∧
  A.dueDate = some (some (now + 2 * dayMs)) ∧ B.dueDate = some (some (now + dayMs)) ∧
  C.dueDate = none

instance (now : Int) (A B C : Task) : Decidable (SmartScenario now A B C) :=
  inferInstanceAs (Decidable (_ ∧ _ ∧ _ ∧ _ ∧ _ ∧ _ ∧ _ ∧ _ ∧ _))

/-- The task `x` was not created before the task `y`. -/
def CreatedNotBefore (x y : Task) : Prop :=
  ∀ cx cy : Int, x.createdAt = some cx → y.createdAt = some cy → cy ≤ cx

/-- The collection is in the order of creation, newest first. -/
def NewestFirst (tasks : List Task) : Prop := tasks.Pairwise CreatedNotBefore

/-- Order of two tasks that tie in smart mode up to the due date: with one completion
state, one priority and one due instant, the first was not created before the second. -/
def SmartTieOrdered (x y : Task) : Prop :=
  x.completed = y.completed → x.priority = y.priority →
    ∀ d : Int, x.dueDate = some (some d) → y.dueDate = some (some d) → CreatedNotBefore x y

/-- Task data as the form produces it: one of the three priorities, and a due date
that is absent or an instant. -/
def TaskData.Valid (taskData : TaskData) : Prop :=
  (taskData.priority = "low" ∨ taskData.priority = "medium" ∨ taskData.priority = "high") ∧
  taskData.dueDate ≠ some none

/-- The mutation can happen on the collection `tasks`: its task data is what the form
produces, and the clock of an add is not behind the creation time of any task. -/
def Mutation.Admissible (tasks : List Task) : Mutation → Prop
  | .add _ now taskData =>
    taskData.Valid ∧ ∀ t ∈ tasks, ∀ c : Int, t.createdAt = some c → c ≤ now
  | .edit _ taskData => taskData.Valid
  | .toggleComplete _ _ => True
  | .delete _ => True
  | .clearCompleted _ => True

/-- Every mutation of the sequence can happen on the collection it is applied to. -/
def AdmissibleFrom (tasks : List Task) : List Mutation → Prop
  | [] => True
  | m :: ms => m.Admissible tasks ∧ AdmissibleFrom (applyMutation tasks m) ms

/-- The count reported by the alert of `handleClearCompleted`. -/
def ClearAlert.reportedCount : ClearAlert → Nat
  | .noCompletedTasks => 0
  | .confirmClear completedCount => completedCount

/-- Number of the local calendar day of the instant `t`. -/
def localDay (tz : TimeZone) (t : Int) : Int := localTime tz t / dayMs

/-- Local hour of the day of the instant `t`. -/
def localHour (tz : TimeZone) (t : Int) : Int := (localTime tz t / msPerHour) % 24

/-- Local minute of the hour of the instant `t`. -/
def localMinute (tz : TimeZone) (t : Int) : Int := (localTime tz t / msPerMinute) % 60

/-- The timestamp has an explicit time: its local hour or minute is not zero. -/
def HasExplicitTime (tz : TimeZone) (t : Int) : Prop :=
  localHour tz t ≠ 0 ∨ localMinute tz t ≠ 0

instance (tz : TimeZone) (t : Int) : Decidable (HasExplicitTime tz t) :=
  inferInstanceAs (Decidable (_ ∨ _))

/-- The local time value 23:59:59.999 of the local day of `t`. -/
def endOfDayLocal (tz : TimeZone) (t : Int) : Int := localDay tz t * dayMs + (dayMs - 1)

/-- The instant 23:59:59.999 local time of the local day of `t`. -/
def endOfLocalDay (tz : TimeZone) (t : Int) : Int := utcOfLocal tz (endOfDayLocal tz t)

/-- The instant three calendar days after `t` at the same local time. -/
def threeDaysAfter (tz : TimeZone) (t : Int) : Int :=
  utcOfLocal tz (localTime tz t + 3 * dayMs)

/-- The zone keeps one UTC offset at all times. -/
def TimeZone.FixedOffset (tz : TimeZone) (off : Int) : Prop :=
  ∀ t : Int, tz.offsetAtInstant t = off ∧ tz.offsetAtLocal t = off

/-- The codec returns the collection it has written, from a text that is not empty. -/
def JsonCodec.RoundTrips (json : JsonCodec) (tasks : List Task) : Prop :=
  json.stringify tasks ≠ "" ∧ json.parse (json.stringify tasks) = some tasks

instance (json : JsonCodec) (tasks : List Task) : Decidable (json.RoundTrips tasks) :=
  inferInstanceAs (Decidable (_ ∧ _))

/-- The record `r` is `t` edited with `taskData`: the four form fields come from
`taskData`, the identity, creation time and completion flag stay, and `completedAt`
stays when `t` is completed and is absent otherwise. -/
def EditedFrom (taskData : TaskData) (t r : Task) : Prop :=
  r.title = taskData.title ∧ r.description = taskData.description ∧
  r.priority = taskData.priority ∧ r.dueDate = taskData.dueDate ∧
  r.id = t.id ∧ r.createdAt = t.createdAt ∧ r.completed = t.completed ∧
  (t.completed = true → r.completedAt = t.completedAt) ∧
  (t.completed = false → r.completedAt = none)

/-- The record `r` is `t` toggled at the instant `now`: the completion flag is negated,
`completedAt` is `now` when the new flag is true and absent when it is false, and every
other field stays. -/
def ToggledFrom (now : Int) (t r : Task) : Prop :=
  r.completed = (!t.completed) ∧
  (r.completed = true → r.completedAt = some (some now)) ∧
  (r.completed = false → r.completedAt = none) ∧
  r.id = t.id ∧ r.title = t.title ∧ r.description = t.description ∧
  r.priority = t.priority ∧ r.dueDate = t.dueDate ∧ r.createdAt = t.createdAt

/-- The text for a deadline `n` days past. -/
def overdueText (n : Nat) : String :=
  toString n ++ " day" ++ (if n = 1 then "" else "s") ++ " overdue"

/-- The text for a deadline `d` days ahead. -/
def dueInText (d : Int) : String := "Due in " ++ toString d ++ " days"

/-- Last character of a text. -/
def lastChar (s : String) : Option Char := s.data.getLast?

/-! ## Sample data -/

/-- A runtime that folds case and collates on ASCII only. -/
def asciiRuntime : Runtime :=
  { toLowerCase := fun s => ⟨s.data.map Char.toLower⟩
    localeCompare := fun s t => if s.data < t.data then -1 else if s = t then 0 else 1 }

/-- Task `A` of the smart-sort scenario: high priority, due in two days. -/
def scenarioA (now : Int) : Task :=
  { id := "A", title := "A", description := "", completed := false, priority := "high"
    dueDate := some (some (now + 2 * dayMs)), createdAt := some now, completedAt := none }

/-- Task `B` of the smart-sort scenario: high priority, due in one day. -/
def scenarioB (now : Int) : Task :=
  { id := "B", title := "B", description := "", completed := false, priority := "high"
    dueDate := some (some (now + dayMs)), createdAt := some (now + 1), completedAt := none }

/-- Task `C` of the smart-sort scenario: low priority, no due date. -/
def scenarioC (now : Int) : Task :=
  { id := "C", title := "C", description := "", completed := false, priority := "low"
    dueDate := none, createdAt := some (now + 2), completedAt := none }

/-- A completed task, used with the scenario tasks as a mixed collection. -/
def scenarioDone : Task :=
  { id := "D", title := "Buy milk", description := "two litres", completed := true
    priority := "medium", dueDate := none, createdAt := some 5, completedAt := some (some 9) }

/-- A small well-formed collection with both completion states. -/
def sampleTasks : List Task :=
  [scenarioDone, scenarioC 1000, scenarioA 1000, scenarioB 1000]

/-- High priority, due at instant 5000, created at instant 1000. -/
def createdEarlier : Task :=
  { id := "t1", title := "Pay rent", description := "", completed := false, priority := "high"
    dueDate := some (some 5000), createdAt := some 1000, completedAt := none }

/-- High priority, due at instant 5000, created at instant 2000. -/
def createdLater : Task :=
  { id := "t2", title := "Call bank", description := "", completed := false, priority := "high"
    dueDate := some (some 5000), createdAt := some 2000, completedAt := none }

/-- A sequence of mutations that exercises every handler. -/
def sampleMutations : List Mutation :=
  [ .add "n1" 2000 ⟨"  Write report ", "", "high", none⟩,
    .toggleComplete "n1" 3000,
    .edit "n1" ⟨"Write the report", "draft", "low", some (some 9000)⟩,
    .toggleComplete "D" 4000,
    .edit "D" ⟨"Buy oat milk", "", "medium", none⟩,
    .delete "C",
    .clearCompleted true ]

/-- A zone two hours ahead of UTC all year. -/
def zonePlusTwo : TimeZone :=
  { offsetAtInstant := fun _ => 7200000, offsetAtLocal := fun _ => 7200000 }

/-- Local midnight of day 20000 in `zonePlusTwo`. -/
def sampleMidnight : Int := 20000 * 86400000 - 7200000

/-- An incomplete task due on local day 20000, with no time chosen. -/
def dateOnlyTask : Task :=
  { id := "d1", title := "File taxes", description := "", completed := false
    priority := "medium", dueDate := some (some sampleMidnight), createdAt := some 1000
    completedAt := none }

/-- An incomplete task due on local day 20000 at 10:30. -/
def timedTask : Task :=
  { id := "d2", title := "Dentist", description := "", completed := false
    priority := "high", dueDate := some (some (sampleMidnight + 37800000)), createdAt := some 1000
    completedAt := none }

/-- A completed task due on local day 20000 at 10:30. -/
def completedTimedTask : Task :=
  { id := "d3", title := "Dentist", description := "", completed := true
    priority := "high", dueDate := some (some (sampleMidnight + 37800000)), createdAt := some 1000
    completedAt := some (some 2000) }

/-- A codec for the samples: it writes the ids of the tasks and reads back the
collections it knows. -/
def sampleJson : JsonCodec :=
  { stringify := fun tasks => "[" ++ ",".intercalate (tasks.map (fun t => t.id)) ++ "]"
    parse := fun text =>
      [sampleTasks, []].find? (fun tasks =>
        "[" ++ ",".intercalate (tasks.map (fun t => t.id)) ++ "]" == text) }

/-- Task data that changes every editable field. -/
def sampleTaskData : TaskData :=
  { title := "  Renew passport ", description := " bring photos", priority := "low"
    dueDate := some (some sampleMidnight) }

/-- A form with a title and a date but no time chosen, the clock at 10:30. -/
def filledForm : FormState :=
  { title := "  Book flights ", description := " before Friday  ", priority := "high"
    selectedDate := sampleMidnight + 37800000, hasDate := true, hasTime := false }

/-- A form whose title is white space only. -/
def blankForm : FormState :=
  { title := " \t ", description := "notes", priority := "low"
    selectedDate := sampleMidnight, hasDate := false, hasTime := false }

/-- Two adds of high-priority tasks due at the same instant, one second apart. -/
def sampleAdds : List Mutation :=
  [ .add "t1" 1000 ⟨"Pay rent", "", "high", some (some 5000)⟩,
    .add "t2" 2000 ⟨"Call bank", "", "high", some (some 5000)⟩ ]

/-! ## The sort -/

section SortLemmas

variable {α : Type} (cmp : α → α → JsNumber)

theorem mem_orderedInsert {a x : α} {l : List α} :
    x ∈ orderedInsert cmp a l ↔ x = a ∨ x ∈ l := by
  induction l with
  | nil => simp [orderedInsert]
  | cons b l ih =>
    unfold orderedInsert
    split
    · simp
    · simp [ih]; tauto

theorem perm_orderedInsert (a : α) (l : List α) : (orderedInsert cmp a l).Perm (a :: l) := by
  induction l with
  | nil => simp [orderedInsert]
  | cons b l ih =>
    unfold orderedInsert
    split
    · exact List.Perm.refl _
    · exact (List.Perm.cons b ih).trans (List.Perm.swap a b l)

theorem perm_jsSort (l : List α) : (jsSort cmp l).Perm l := by
  induction l with
  | nil => exact List.Perm.refl _
  | cons a l ih => exact (perm_orderedInsert cmp a _).trans (List.Perm.cons a ih)

theorem mem_jsSort {x : α} {l : List α} : x ∈ jsSort cmp l ↔ x ∈ l :=
  (perm_jsSort cmp l).mem_iff

/-- Inserting into a list whose elements are pairwise related by `R` keeps them so, as
long as `R` agrees with the two outcomes of the comparison and chains through the
inserted element. -/
theorem pairwise_orderedInsert (R : α → α → Prop) (a : α) (l : List α)
    (hle : ∀ b ∈ l, (cmp a b).getD 0 ≤ 0 → R a b)
    (hgt : ∀ b ∈ l, ¬ (cmp a b).getD 0 ≤ 0 → R b a)
    (htrans : ∀ b ∈ l, ∀ c ∈ l, R a b → R b c → R a c)
    (hl : l.Pairwise R) : (orderedInsert cmp a l).Pairwise R := by
  induction l with
  | nil => simp [orderedInsert]
  | cons b l ih =>
    rw [List.pairwise_cons] at hl
    unfold orderedInsert
    split
    · rename_i h
      have hab : R a b := hle b (List.mem_cons_self _ _) h
      refine List.Pairwise.cons ?_ (List.Pairwise.cons hl.1 hl.2)
      intro x hx
      rcases List.mem_cons.1 hx with rfl | hx
      · exact hab
      · exact htrans b (List.mem_cons_self _ _) x (List.mem_cons_of_mem _ hx) hab (hl.1 x hx)
    · rename_i h
      refine List.Pairwise.cons ?_ ?_
      · intro x hx
        rcases (mem_orderedInsert cmp).1 hx with rfl | hx
        · exact hgt b (List.mem_cons_self _ _) h
        · exact hl.1 x hx
      · exact ih (fun c hc => hle c (List.mem_cons_of_mem _ hc))
          (fun c hc => hgt c (List.mem_cons_of_mem _ hc))
          (fun c hc d hd => htrans c (List.mem_cons_of_mem _ hc) d (List.mem_cons_of_mem _ hd))
          hl.2

/-- The sorted list is pairwise related by any relation `R` that the comparator
respects on the elements, which all satisfy `S`. -/
theorem pairwise_jsSort (R : α → α → Prop) (S : α → Prop)
    (hle : ∀ a b, S a → S b → (cmp a b).getD 0 ≤ 0 → R a b)
    (hgt : ∀ a b, S a → S b → ¬ (cmp a b).getD 0 ≤ 0 → R b a)
    (htrans : ∀ a b c, S a → S b → S c → R a b → R b c → R a c)
    (l : List α) (hS : ∀ x ∈ l, S x) : (jsSort cmp l).Pairwise R := by
  induction l with
  | nil => exact List.Pairwise.nil
  | cons a l ih =>
    have hSa : S a := hS a (List.mem_cons_self _ _)
    have hSl : ∀ x ∈ jsSort cmp l, S x := fun x hx =>
      hS x (List.mem_cons_of_mem _ ((mem_jsSort cmp).1 hx))
    exact pairwise_orderedInsert cmp R a _
      (fun b hb => hle a b hSa (hSl b hb))
      (fun b hb => hgt a b hSa (hSl b hb))
      (fun b hb c hc => htrans a b c hSa (hSl b hb) (hSl c hc))
      (ih (fun x hx => hS x (List.mem_cons_of_mem _ hx)))

/-- A list already in comparator order is returned as it is. -/
theorem jsSort_eq_self (l : List α) (h : l.Pairwise (fun a b => (cmp a b).getD 0 ≤ 0)) :
    jsSort cmp l = l := by
  induction l with
  | nil => rfl
  | cons a l ih =>
    rw [List.pairwise_cons] at h
    show orderedInsert cmp a (jsSort cmp l) = a :: l
    rw [ih h.2]
    cases l with
    | nil => rfl
    | cons b l =>
      unfold orderedInsert
      rw [if_pos (h.1 b (List.mem_cons_self _ _))]

end SortLemmas

/-! ## Stratification by completion state -/

theorem stratifies_smart : Stratifies smartCompare := by
  intro a b h
  simp [smartCompare, h]

theorem stratifies_priority : Stratifies priorityCompare := by
  intro a b h
  simp [priorityCompare, h]

theorem stratifies_dueDate : Stratifies dueDateCompare := by
  intro a b h
  simp [dueDateCompare, h]

theorem stratifies_alphabetical (rt : Runtime) : Stratifies (alphabeticalCompare rt) := by
  intro a b h
  simp [alphabeticalCompare, h]

theorem stratifies_created : Stratifies createdCompare := by
  intro a b h
  simp [createdCompare, h]

theorem jsSort_stratified (cmp : Task → Task → JsNumber) (hc : Stratifies cmp) (l : List Task) :
    (jsSort cmp l).Pairwise (fun x y => ¬ (x.completed = true ∧ y.completed = false)) := by
  refine pairwise_jsSort cmp _ (fun _ => True) ?_ ?_ ?_ l (fun _ _ => trivial)
  · rintro a b - - h ⟨ha, hb⟩
    rw [hc a b (by simp [ha, hb])] at h
    simp [ha] at h
  · rintro a b - - h ⟨hb, ha⟩
    rw [hc a b (by simp [ha, hb])] at h
    simp [ha] at h
  · rintro a b c - - - hab hbc ⟨ha, hc⟩
    cases hb : b.completed
    · exact hab ⟨ha, hb⟩
    · exact hbc ⟨hb, hc⟩

/-- C1. Whatever the sort mode, recognised or not, and whatever the collection, no
completed task stands before an incomplete task in the output of `sortTasksBy`. -/
theorem sortTasksBy_stratified (rt : Runtime) (tasks : List Task) (sortBy : String) :
    (sortTasksBy rt tasks sortBy).Pairwise
      (fun x y => ¬ (x.completed = true ∧ y.completed = false)) := by
  unfold sortTasksBy
  split_ifs
  · exact jsSort_stratified _ stratifies_priority tasks
  · exact jsSort_stratified _ stratifies_dueDate tasks
  · exact jsSort_stratified _ (stratifies_alphabetical rt) tasks
  · exact jsSort_stratified _ stratifies_created tasks
  · exact jsSort_stratified _ stratifies_smart tasks

/-! ## Completion invariant -/

theorem createTask_invariant (id : String) (now : Int) (title : String)
    (description : Option String) (dueDate : Option (Option TimeValue))
    (priority : Option String) :
    CompletionInvariant (createTask id now title description dueDate priority) := by
  simp [CompletionInvariant, createTask]

theorem applyMutation_invariant (tasks : List Task) (m : Mutation)
    (h : ∀ t ∈ tasks, CompletionInvariant t) :
    ∀ t ∈ applyMutation tasks m, CompletionInvariant t := by
  intro t ht
  cases m with
  | add id now taskData =>
    simp only [applyMutation, handleAddTask, List.mem_cons] at ht
    rcases ht with rfl | ht
    · exact createTask_invariant _ _ _ _ _ _
    · exact h t ht
  | edit editingId taskData =>
    simp only [applyMutation, handleEditTask, List.mem_map] at ht
    obtain ⟨u, hu, rfl⟩ := ht
    have hinv := h u hu
    unfold CompletionInvariant at hinv ⊢
    by_cases hid : u.id = editingId
    · rw [if_pos hid]
      cases hc : u.completed <;> simp_all
    · rw [if_neg hid]
      exact hinv
  | toggleComplete taskId now =>
    simp only [applyMutation, handleToggleComplete, List.mem_map] at ht
    obtain ⟨u, hu, rfl⟩ := ht
    have hinv := h u hu
    unfold CompletionInvariant at hinv ⊢
    by_cases hid : u.id = taskId
    · rw [if_pos hid]
      cases hc : u.completed <;> simp
    · rw [if_neg hid]
      exact hinv
  | delete taskId =>
    simp only [applyMutation, handleDeleteTask] at ht
    exact h t (List.mem_filter.1 ht).1
  | clearCompleted confirmed =>
    simp only [applyMutation, handleClearCompleted] at ht
    split_ifs at ht
    · exact h t ht
    · exact h t (List.mem_filter.1 ht).1
    · exact h t ht

/-- C2. From a collection in which every task has `completed` true exactly when
`completedAt` is present, any finite sequence of add, edit, toggleComplete, delete and
clearCompleted mutations leads to a collection in which every task still has it. -/
theorem completion_invariant_preserved (tasks : List Task) (ms : List Mutation)
    (h : ∀ t ∈ tasks, CompletionInvariant t) :
    ∀ t ∈ applyMutations tasks ms, CompletionInvariant t := by
  induction ms generalizing tasks with
  | nil => exact h
  | cons m ms ih => exact ih (applyMutation tasks m) (applyMutation_invariant tasks m h)

theorem completion_invariant_preserved_witness :
    (∀ t ∈ sampleTasks, CompletionInvariant t) ∧
    ∀ t ∈ applyMutations sampleTasks sampleMutations, CompletionInvariant t :=
  ⟨by decide, completion_invariant_preserved sampleTasks sampleMutations (by decide)⟩


/-! ## Filter -/

/-- C3. The `active` and `completed` filters split the collection: each task is in
exactly one of the two results, with its multiplicity, both results are subsequences
of the input, the `all` filter returns the input, and the counts of `getTaskCounts`
satisfy `active + completed = all = length`. -/
theorem filterTasks_partition (tasks : List Task) :
    (∀ t ∈ tasks,
      (t ∈ filterTasks tasks "active" ∧ t ∉ filterTasks tasks "completed") ∨
      (t ∉ filterTasks tasks "active" ∧ t ∈ filterTasks tasks "completed")) ∧
    (∀ t : Task, (filterTasks tasks "active").count t + (filterTasks tasks "completed").count t
      = tasks.count t) ∧
    (filterTasks tasks "active").Sublist tasks ∧
    (filterTasks tasks "completed").Sublist tasks ∧
    filterTasks tasks "all" = tasks ∧
    (getTaskCounts tasks).active = (filterTasks tasks "active").length ∧
    (getTaskCounts tasks).completed = (filterTasks tasks "completed").length ∧
    (getTaskCounts tasks).active + (getTaskCounts tasks).completed = (getTaskCounts tasks).all ∧
    (getTaskCounts tasks).all = tasks.length := by
  have hA : filterTasks tasks "active" = tasks.filter (fun task => !task.completed) := by
    simp [filterTasks]
  have hC : filterTasks tasks "completed" = tasks.filter (fun task => task.completed) := by
    simp [filterTasks]
  have hAll : filterTasks tasks "all" = tasks := by
    simp [filterTasks]
  have hlen : ∀ l : List Task, (l.filter (fun task => !task.completed)).length +
      (l.filter (fun task => task.completed)).length = l.length := by
    intro l
    induction l with
    | nil => rfl
    | cons a l ih => cases hc : a.completed <;> simp [List.filter_cons, hc] <;> omega
  have hcount : ∀ (t : Task) (l : List Task),
      (l.filter (fun task => !task.completed)).count t +
      (l.filter (fun task => task.completed)).count t = l.count t := by
    intro t l
    induction l with
    | nil => rfl
    | cons a l ih =>
      cases hc : a.completed <;> simp [List.filter_cons, hc, List.count_cons] <;> omega
  rw [hA, hC, hAll]
  refine ⟨?_, fun t => hcount t tasks, List.filter_sublist _, List.filter_sublist _, rfl, rfl, rfl,
    hlen tasks, rfl⟩
  intro t ht
  cases hc : t.completed
  · left; simp [List.mem_filter, ht, hc]
  · right; simp [List.mem_filter, ht, hc]

/-! ## Search -/

theorem includesChars_iff (s q : List Char) : includesChars s q = true ↔ q <:+: s := by
  induction s with
  | nil => simp [includesChars, List.isEmpty_iff]
  | cons c t ih =>
    rw [includesChars, Bool.or_eq_true, ih, List.isPrefixOf_iff_prefix, List.infix_cons_iff]

theorem trim_eq_empty_iff (q : String) :
    trim q = "" ↔ ∀ c ∈ q.data, isTrimChar c = true := by
  unfold trim
  constructor
  · intro h
    have h1 : ((q.data.dropWhile isTrimChar).reverse.dropWhile isTrimChar).reverse = [] :=
      congrArg String.data h
    rw [List.reverse_eq_nil_iff, List.dropWhile_eq_nil_iff] at h1
    have h2 : q.data.dropWhile isTrimChar = [] := by
      cases hd : q.data.dropWhile isTrimChar with
      | nil => rfl
      | cons a l =>
        have hne : q.data.dropWhile isTrimChar ≠ [] := by simp [hd]
        have := List.head_dropWhile_not isTrimChar q.data hne
        have hmem : (q.data.dropWhile isTrimChar).head hne ∈ (q.data.dropWhile isTrimChar).reverse :=
          List.mem_reverse.2 (List.head_mem hne)
        have := h1 _ hmem
        simp_all
    exact List.dropWhile_eq_nil_iff.1 h2
  · intro h
    have h2 : q.data.dropWhile isTrimChar = [] := List.dropWhile_eq_nil_iff.2 h
    simp [h2]

/-- C4. For a query that does not trim to empty, `searchTasks` is the filter of the
collection, input order kept, by a predicate that holds exactly for the tasks whose
title or description contains the query when both are put in lower case. -/
theorem searchTasks_exact (rt : Runtime) (tasks : List Task) (q : String)
    (hq : trim q ≠ "") :
    ∃ p : Task → Bool,
      (∀ t, p t = true ↔
        (ContainsIgnoringCase rt t.title q ∨ ContainsIgnoringCase rt t.description q)) ∧
      searchTasks rt tasks q = tasks.filter p ∧
      (searchTasks rt tasks q).Sublist tasks ∧
      (∀ t, t ∈ searchTasks rt tasks q ↔
        t ∈ tasks ∧
          (ContainsIgnoringCase rt t.title q ∨ ContainsIgnoringCase rt t.description q)) := by
  have hp : ∀ t : Task,
      (includes (rt.toLowerCase t.title) (rt.toLowerCase q) ||
        includes (rt.toLowerCase t.description) (rt.toLowerCase q)) = true ↔
      (ContainsIgnoringCase rt t.title q ∨ ContainsIgnoringCase rt t.description q) := by
    intro t
    simp only [Bool.or_eq_true, includes, includesChars_iff, ContainsIgnoringCase]
  have hs : searchTasks rt tasks q = tasks.filter (fun t =>
      includes (rt.toLowerCase t.title) (rt.toLowerCase q) ||
        includes (rt.toLowerCase t.description) (rt.toLowerCase q)) := by
    simp [searchTasks, hq]
  refine ⟨_, hp, hs, ?_, ?_⟩
  · rw [hs]; exact List.filter_sublist _
  · intro t
    rw [hs, List.mem_filter, hp]

theorem searchTasks_exact_witness :
    trim "MIL" ≠ "" ∧
    ∃ p : Task → Bool,
      (∀ t, p t = true ↔
        (ContainsIgnoringCase asciiRuntime t.title "MIL" ∨
          ContainsIgnoringCase asciiRuntime t.description "MIL")) ∧
      searchTasks asciiRuntime sampleTasks "MIL" = sampleTasks.filter p ∧
      (searchTasks asciiRuntime sampleTasks "MIL").Sublist sampleTasks ∧
      (∀ t, t ∈ searchTasks asciiRuntime sampleTasks "MIL" ↔
        t ∈ sampleTasks ∧
          (ContainsIgnoringCase asciiRuntime t.title "MIL" ∨
            ContainsIgnoringCase asciiRuntime t.description "MIL")) :=
  ⟨by decide, searchTasks_exact asciiRuntime sampleTasks "MIL" (by decide)⟩

/-- C5. For a query that trims to empty, in particular one made of white space only
or the empty one, `searchTasks` returns the collection unchanged. -/
theorem searchTasks_blank (rt : Runtime) (tasks : List Task) (q : String)
    (hq : trim q = "" ∨ ∀ c ∈ q.data, isTrimChar c = true) :
    searchTasks rt tasks q = tasks := by
  have h : trim q = "" := by
    rcases hq with h | h
    · exact h
    · exact (trim_eq_empty_iff q).2 h
  simp [searchTasks, h]

theorem searchTasks_blank_witness :
    (trim " \t\n" = "" ∨ ∀ c ∈ (" \t\n" : String).data, isTrimChar c = true) ∧
    searchTasks asciiRuntime sampleTasks " \t\n" = sampleTasks :=
  ⟨Or.inl (by decide), searchTasks_blank asciiRuntime sampleTasks " \t\n" (Or.inl (by decide))⟩

/-! ## Comparators on well-formed tasks -/

theorem getD_ite (c : Prop) [Decidable c] (x y : Int) :
    (if c then some x else some y : Option Int).getD 0 = if c then x else y := by
  split <;> rfl

theorem priorityOrder_of_valid {t : Task} (h : t.ValidPriority) :
    ∃ n : Int, priorityOrder t.priority = some n ∧ 1 ≤ n ∧ n ≤ 3 := by
  rcases h with h | h | h <;> simp [priorityOrder, h]

theorem createdAt_of_valid {t : Task} (h : t.ValidCreated) : ∃ c : Int, t.createdAt = some c := by
  cases hc : t.createdAt with
  | none => exact absurd hc h
  | some c => exact ⟨c, rfl⟩

theorem dueDate_of_valid {t : Task} (h : t.ValidDue) :
    t.dueDate = none ∨ ∃ d : Int, t.dueDate = some (some d) := by
  cases hd : t.dueDate with
  | none => exact Or.inl rfl
  | some d =>
    cases d with
    | none => exact absurd hd h
    | some d => exact Or.inr ⟨d, rfl⟩

theorem smartCompare_total (a b : Task) (ha : a.WellFormed) (hb : b.WellFormed)
    (h : ¬ NotAfter smartCompare a b) : NotAfter smartCompare b a := by
  obtain ⟨na, hna, -, -⟩ := priorityOrder_of_valid ha.1
  obtain ⟨nb, hnb, -, -⟩ := priorityOrder_of_valid hb.1
  obtain ⟨ca, hca⟩ := createdAt_of_valid ha.2.1
  obtain ⟨cb, hcb⟩ := createdAt_of_valid hb.2.1
  revert h
  rcases dueDate_of_valid ha.2.2 with hda | ⟨da, hda⟩ <;>
    rcases dueDate_of_valid hb.2.2 with hdb | ⟨db, hdb⟩ <;>
    cases hac : a.completed <;> cases hbc : b.completed <;>
    simp [NotAfter, smartCompare, hna, hnb, hca, hcb, hda, hdb, hac, hbc, numSub, dateDiff,
      getD_ite] <;>
    intros <;> omega

theorem smartCompare_trans (a b c : Task) (ha : a.WellFormed) (hb : b.WellFormed)
    (hc : c.WellFormed) (h1 : NotAfter smartCompare a b) (h2 : NotAfter smartCompare b c) :
    NotAfter smartCompare a c := by
  obtain ⟨na, hna, -, -⟩ := priorityOrder_of_valid ha.1
  obtain ⟨nb, hnb, -, -⟩ := priorityOrder_of_valid hb.1
  obtain ⟨nc, hnc, -, -⟩ := priorityOrder_of_valid hc.1
  obtain ⟨ca, hca⟩ := createdAt_of_valid ha.2.1
  obtain ⟨cb, hcb⟩ := createdAt_of_valid hb.2.1
  obtain ⟨cc, hcc⟩ := createdAt_of_valid hc.2.1
  revert h1 h2
  rcases dueDate_of_valid ha.2.2 with hda | ⟨da, hda⟩ <;>
    rcases dueDate_of_valid hb.2.2 with hdb | ⟨db, hdb⟩ <;>
    rcases dueDate_of_valid hc.2.2 with hdc | ⟨dc, hdc⟩ <;>
    cases hac : a.completed <;> cases hbc : b.completed <;> cases hcc' : c.completed <;>
    simp [NotAfter, smartCompare, hna, hnb, hnc, hca, hcb, hcc, hda, hdb, hdc, hac, hbc, hcc',
      numSub, dateDiff, getD_ite] <;>
    intros <;> omega

theorem smartCompare_ordered (a b : Task) (ha : a.WellFormed) (hb : b.WellFormed)
    (h : NotAfter smartCompare a b) : SmartOrdered a b := by
  obtain ⟨na, hna, -, -⟩ := priorityOrder_of_valid ha.1
  obtain ⟨nb, hnb, -, -⟩ := priorityOrder_of_valid hb.1
  obtain ⟨ca, hca⟩ := createdAt_of_valid ha.2.1
  obtain ⟨cb, hcb⟩ := createdAt_of_valid hb.2.1
  revert h
  rcases dueDate_of_valid ha.2.2 with hda | ⟨da, hda⟩ <;>
    rcases dueDate_of_valid hb.2.2 with hdb | ⟨db, hdb⟩ <;>
    cases hac : a.completed <;> cases hbc : b.completed <;>
    simp [NotAfter, SmartOrdered, priorityRank, smartCompare, hna, hnb, hca, hcb, hda, hdb, hac,
      hbc, numSub, dateDiff, getD_ite] <;>
    intros <;> omega


theorem priorityCompare_total (a b : Task) (ha : a.ValidPriority ∧ a.ValidCreated)
    (hb : b.ValidPriority ∧ b.ValidCreated)
    (h : ¬ NotAfter priorityCompare a b) : NotAfter priorityCompare b a := by
  obtain ⟨na, hna, -, -⟩ := priorityOrder_of_valid ha.1
  obtain ⟨nb, hnb, -, -⟩ := priorityOrder_of_valid hb.1
  obtain ⟨ca, hca⟩ := createdAt_of_valid ha.2
  obtain ⟨cb, hcb⟩ := createdAt_of_valid hb.2
  revert h
  cases hac : a.completed <;> cases hbc : b.completed <;>
    simp [NotAfter, priorityCompare, hna, hnb, hca, hcb, hac, hbc, numSub, dateDiff,
      getD_ite] <;>
    intros <;> omega

theorem priorityCompare_trans (a b c : Task) (ha : a.ValidPriority ∧ a.ValidCreated)
    (hb : b.ValidPriority ∧ b.ValidCreated) (hc : c.ValidPriority ∧ c.ValidCreated)
    (h1 : NotAfter priorityCompare a b) (h2 : NotAfter priorityCompare b c) :
    NotAfter priorityCompare a c := by
  obtain ⟨na, hna, -, -⟩ := priorityOrder_of_valid ha.1
  obtain ⟨nb, hnb, -, -⟩ := priorityOrder_of_valid hb.1
  obtain ⟨nc, hnc, -, -⟩ := priorityOrder_of_valid hc.1
  obtain ⟨ca, hca⟩ := createdAt_of_valid ha.2
  obtain ⟨cb, hcb⟩ := createdAt_of_valid hb.2
  obtain ⟨cc, hcc⟩ := createdAt_of_valid hc.2
  revert h1 h2
  cases hac : a.completed <;> cases hbc : b.completed <;> cases hcc' : c.completed <;>
    simp [NotAfter, priorityCompare, hna, hnb, hnc, hca, hcb, hcc, hac, hbc, hcc',
      numSub, dateDiff, getD_ite] <;>
    intros <;> omega

theorem priorityCompare_ordered (a b : Task) (ha : a.ValidPriority ∧ a.ValidCreated)
    (hb : b.ValidPriority ∧ b.ValidCreated)
    (h : NotAfter priorityCompare a b) : PriorityOrdered a b := by
  obtain ⟨na, hna, -, -⟩ := priorityOrder_of_valid ha.1
  obtain ⟨nb, hnb, -, -⟩ := priorityOrder_of_valid hb.1
  obtain ⟨ca, hca⟩ := createdAt_of_valid ha.2
  obtain ⟨cb, hcb⟩ := createdAt_of_valid hb.2
  revert h
  cases hac : a.completed <;> cases hbc : b.completed <;>
    simp [NotAfter, PriorityOrdered, priorityRank, priorityCompare, hna, hnb, hca, hcb, hac,
      hbc, numSub, dateDiff, getD_ite] <;>
    intros <;> omega

theorem dueDateCompare_total (a b : Task) (ha : a.ValidCreated ∧ a.ValidDue)
    (hb : b.ValidCreated ∧ b.ValidDue)
    (h : ¬ NotAfter dueDateCompare a b) : NotAfter dueDateCompare b a := by
  obtain ⟨ca, hca⟩ := createdAt_of_valid ha.1
  obtain ⟨cb, hcb⟩ := createdAt_of_valid hb.1
  revert h
  rcases dueDate_of_valid ha.2 with hda | ⟨da, hda⟩ <;>
    rcases dueDate_of_valid hb.2 with hdb | ⟨db, hdb⟩ <;>
    cases hac : a.completed <;> cases hbc : b.completed <;>
    simp [NotAfter, dueDateCompare, hca, hcb, hda, hdb, hac, hbc, numSub, dateDiff,
      getD_ite] <;>
    intros <;> omega

theorem dueDateCompare_trans (a b c : Task) (ha : a.ValidCreated ∧ a.ValidDue)
    (hb : b.ValidCreated ∧ b.ValidDue) (hc : c.ValidCreated ∧ c.ValidDue)
    (h1 : NotAfter dueDateCompare a b) (h2 : NotAfter dueDateCompare b c) :
    NotAfter dueDateCompare a c := by
  obtain ⟨ca, hca⟩ := createdAt_of_valid ha.1
  obtain ⟨cb, hcb⟩ := createdAt_of_valid hb.1
  obtain ⟨cc, hcc⟩ := createdAt_of_valid hc.1
  revert h1 h2
  rcases dueDate_of_valid ha.2 with hda | ⟨da, hda⟩ <;>
    rcases dueDate_of_valid hb.2 with hdb | ⟨db, hdb⟩ <;>
    rcases dueDate_of_valid hc.2 with hdc | ⟨dc, hdc⟩ <;>
    cases hac : a.completed <;> cases hbc : b.completed <;> cases hcc' : c.completed <;>
    simp [NotAfter, dueDateCompare, hca, hcb, hcc, hda, hdb, hdc, hac, hbc, hcc',
      numSub, dateDiff, getD_ite] <;>
    intros <;> omega

theorem dueDateCompare_ordered (a b : Task) (ha : a.ValidCreated ∧ a.ValidDue)
    (hb : b.ValidCreated ∧ b.ValidDue)
    (h : NotAfter dueDateCompare a b) : DueDateOrdered a b := by
  obtain ⟨ca, hca⟩ := createdAt_of_valid ha.1
  obtain ⟨cb, hcb⟩ := createdAt_of_valid hb.1
  revert h
  rcases dueDate_of_valid ha.2 with hda | ⟨da, hda⟩ <;>
    rcases dueDate_of_valid hb.2 with hdb | ⟨db, hdb⟩ <;>
    cases hac : a.completed <;> cases hbc : b.completed <;>
    simp [NotAfter, DueDateOrdered, dueDateCompare, hca, hcb, hda, hdb, hac, hbc, numSub,
      dateDiff, getD_ite] <;>
    intros <;> omega

theorem createdCompare_total (a b : Task) (ha : a.ValidCreated) (hb : b.ValidCreated)
    (h : ¬ NotAfter createdCompare a b) : NotAfter createdCompare b a := by
  obtain ⟨ca, hca⟩ := createdAt_of_valid ha
  obtain ⟨cb, hcb⟩ := createdAt_of_valid hb
  revert h
  cases hac : a.completed <;> cases hbc : b.completed <;>
    simp [NotAfter, createdCompare, hca, hcb, hac, hbc, numSub, dateDiff] <;>
    intros <;> omega

theorem createdCompare_trans (a b c : Task) (ha : a.ValidCreated) (hb : b.ValidCreated)
    (hc : c.ValidCreated)
    (h1 : NotAfter createdCompare a b) (h2 : NotAfter createdCompare b c) :
    NotAfter createdCompare a c := by
  obtain ⟨ca, hca⟩ := createdAt_of_valid ha
  obtain ⟨cb, hcb⟩ := createdAt_of_valid hb
  obtain ⟨cc, hcc⟩ := createdAt_of_valid hc
  revert h1 h2
  cases hac : a.completed <;> cases hbc : b.completed <;> cases hcc' : c.completed <;>
    simp [NotAfter, createdCompare, hca, hcb, hcc, hac, hbc, hcc', numSub, dateDiff] <;>
    intros <;> omega


/-! ## Smart sort -/

/-- A rearrangement of three elements is one of the six orders. -/
theorem perm_three {α : Type} {a b c : α} {l : List α} (h : l.Perm [a, b, c]) :
    l = [a, b, c] ∨ l = [a, c, b] ∨ l = [b, a, c] ∨ l = [b, c, a] ∨ l = [c, a, b] ∨
      l = [c, b, a] := by
  have := List.mem_permutations.2 h
  simp [List.permutations, List.permutationsAux, List.permutationsAux.rec,
    List.permutationsAux2] at this
  tauto

/-- Sorting twice is sorting once when the comparator is total and transitive on the
elements. -/
theorem jsSort_idempotent {α : Type} (cmp : α → α → JsNumber) (S : α → Prop)
    (htot : ∀ a b, S a → S b → ¬ (cmp a b).getD 0 ≤ 0 → (cmp b a).getD 0 ≤ 0)
    (htrans : ∀ a b c, S a → S b → S c →
      (cmp a b).getD 0 ≤ 0 → (cmp b c).getD 0 ≤ 0 → (cmp a c).getD 0 ≤ 0)
    (l : List α) (hS : ∀ x ∈ l, S x) : jsSort cmp (jsSort cmp l) = jsSort cmp l :=
  jsSort_eq_self cmp _
    (pairwise_jsSort cmp (fun a b => (cmp a b).getD 0 ≤ 0) S (fun _ _ _ _ h => h) htot htrans l hS)

theorem smart_scenario_values {now : Int} {A B C : Task} (h : SmartScenario now A B C) :
    smartCompare A B = some dayMs ∧ smartCompare B A = some (-dayMs) ∧
    smartCompare A C = some (-2) ∧ smartCompare C A = some 2 ∧
    smartCompare B C = some (-2) ∧ smartCompare C B = some 2 := by
  obtain ⟨hA, hB, hC, pA, pB, pC, dA, dB, dC⟩ := h
  simp [smartCompare, hA, hB, hC, pA, pB, pC, dA, dB, dC, priorityOrder, numSub, dateDiff]
  omega

/-- C6. In the smart sort of a collection of well-formed tasks, two tasks `x` before `y`
of one completion state have `priority x ≥ priority y`; at equal priority `y` has no
due date that `x` lacks, and when both have one the due date of `x` is not later.  In
particular tasks `A` (high, due in two days), `B` (high, due in one day) and `C` (low,
no due date), all incomplete, come out as `[B, A, C]` from every input order. -/
theorem sortTasks_smart_order :
    (∀ tasks : List Task, (∀ t ∈ tasks, t.WellFormed) →
      (sortTasks tasks).Pairwise SmartOrdered) ∧
    (∀ (now : Int) (A B C : Task), SmartScenario now A B C →
      ∀ l : List Task, l.Perm [A, B, C] → sortTasks l = [B, A, C]) := by
  constructor
  · intro tasks hwf
    have hsorted : (sortTasks tasks).Pairwise (NotAfter smartCompare) :=
      pairwise_jsSort smartCompare (NotAfter smartCompare) Task.WellFormed
        (fun _ _ _ _ h => h) smartCompare_total smartCompare_trans tasks hwf
    refine hsorted.imp_of_mem ?_
    intro a b ha hb hab
    exact smartCompare_ordered a b (hwf a ((mem_jsSort _).1 ha)) (hwf b ((mem_jsSort _).1 hb)) hab
  · intro now A B C h l hl
    obtain ⟨hAB, hBA, hAC, hCA, hBC, hCB⟩ := smart_scenario_values h
    have hd : (0 : Int) < dayMs := by decide
    rcases perm_three hl with rfl | rfl | rfl | rfl | rfl | rfl <;>
      simp [sortTasks, jsSort, orderedInsert, hAB, hBA, hAC, hCA, hBC, hCB] <;> omega

theorem sortTasks_smart_order_witness :
    (∀ t ∈ sampleTasks, t.WellFormed) ∧ (sortTasks sampleTasks).Pairwise SmartOrdered ∧
    SmartScenario 1000 (scenarioA 1000) (scenarioB 1000) (scenarioC 1000) ∧
    List.Perm [scenarioC 1000, scenarioA 1000, scenarioB 1000]
      [scenarioA 1000, scenarioB 1000, scenarioC 1000] ∧
    sortTasks [scenarioC 1000, scenarioA 1000, scenarioB 1000] =
      [scenarioB 1000, scenarioA 1000, scenarioC 1000] :=
  ⟨by decide, sortTasks_smart_order.1 sampleTasks (by decide), by decide, by decide,
    sortTasks_smart_order.2 1000 _ _ _ (by decide) _ (by decide)⟩

/-- Outside the order of creation: two tasks that tie on completion state, priority and
due instant compare as equal in smart mode and stay in input order, while
`sortTasksByDueDate` puts the one created later first. -/
theorem sortTasks_equal_due_keeps_input_order :
    createdEarlier.completed = createdLater.completed ∧
    createdEarlier.priority = createdLater.priority ∧
    createdEarlier.dueDate = some (some 5000) ∧ createdLater.dueDate = some (some 5000) ∧
    createdEarlier.createdAt = some 1000 ∧ createdLater.createdAt = some 2000 ∧
    smartCompare createdEarlier createdLater = some 0 ∧
    sortTasks [createdEarlier, createdLater] = [createdEarlier, createdLater] ∧
    sortTasks [createdLater, createdEarlier] = [createdLater, createdEarlier] ∧
    sortTasksByDueDate [createdEarlier, createdLater] = [createdLater, createdEarlier] := by
  decide

/-! ## Smart sort of the collection the controller keeps -/

/-- Two well-formed tasks with one completion state, one priority and one due instant
compare as equal in smart mode. -/
theorem smartCompare_tie (x y : Task) (hx : x.WellFormed) (hc : x.completed = y.completed)
    (hp : x.priority = y.priority) (d : Int) (hdx : x.dueDate = some (some d))
    (hdy : y.dueDate = some (some d)) : smartCompare y x = some 0 := by
  obtain ⟨n, hn, -, -⟩ := priorityOrder_of_valid hx.1
  simp [smartCompare, hc, ← hp, hn, hdx, hdy, numSub, dateDiff]

/-- The stable sort of a collection in the order of creation keeps that order among
the tasks that the smart comparator ranks as equal. -/
theorem sortTasks_ties_newestFirst (tasks : List Task) (hn : NewestFirst tasks)
    (hwf : ∀ t ∈ tasks, t.WellFormed) :
    (sortTasks tasks).Pairwise
      (fun x y => NotAfter smartCompare x y ∧
        (NotAfter smartCompare y x → CreatedNotBefore x y)) := by
  unfold sortTasks
  induction tasks with
  | nil => exact List.Pairwise.nil
  | cons a l ih =>
    have hn' : (∀ b ∈ l, CreatedNotBefore a b) ∧ NewestFirst l := List.pairwise_cons.1 hn
    have hwa : a.WellFormed := hwf a (List.mem_cons_self _ _)
    have hwl : ∀ t ∈ jsSort smartCompare l, t.WellFormed := fun t ht =>
      hwf t (List.mem_cons_of_mem _ ((mem_jsSort _).1 ht))
    have hal : ∀ b ∈ jsSort smartCompare l, CreatedNotBefore a b := fun b hb =>
      hn'.1 b ((mem_jsSort _).1 hb)
    refine pairwise_orderedInsert smartCompare _ a (jsSort smartCompare l) ?_ ?_ ?_
      (ih hn'.2 (fun t ht => hwf t (List.mem_cons_of_mem _ ht)))
    · intro b hb h
      exact ⟨h, fun _ => hal b hb⟩
    · intro b hb h
      exact ⟨smartCompare_total a b hwa (hwl b hb) h, fun h' => absurd h' h⟩
    · intro b hb c hc hab hbc
      exact ⟨smartCompare_trans a b c hwa (hwl b hb) (hwl c hc) hab.1 hbc.1, fun _ => hal c hc⟩

theorem newestFirst_map (f : Task → Task) (hf : ∀ t, (f t).createdAt = t.createdAt)
    (tasks : List Task) (h : NewestFirst tasks) : NewestFirst (tasks.map f) := by
  unfold NewestFirst at h ⊢
  rw [List.pairwise_map]
  refine h.imp ?_
  intro a b hab cx cy hx hy
  rw [hf] at hx hy
  exact hab cx cy hx hy

theorem filterTasks_sublist (tasks : List Task) (filter : String) :
    (filterTasks tasks filter).Sublist tasks := by
  unfold filterTasks
  split_ifs
  · exact List.filter_sublist _
  · exact List.filter_sublist _
  · exact List.Sublist.refl _

theorem searchTasks_sublist (rt : Runtime) (tasks : List Task) (searchQuery : String) :
    (searchTasks rt tasks searchQuery).Sublist tasks := by
  unfold searchTasks
  split_ifs
  · exact List.Sublist.refl _
  · exact List.filter_sublist _

/-- A mutation that can happen keeps the collection in the order of creation and its
tasks well-formed. -/
theorem applyMutation_newestFirst (tasks : List Task) (m : Mutation)
    (hn : NewestFirst tasks) (hwf : ∀ t ∈ tasks, t.WellFormed) (hm : m.Admissible tasks) :
    NewestFirst (applyMutation tasks m) ∧ ∀ t ∈ applyMutation tasks m, t.WellFormed := by
  cases m with
  | add id now taskData =>
    obtain ⟨hv, hclock⟩ := hm
    simp only [applyMutation, handleAddTask]
    constructor
    · refine List.Pairwise.cons ?_ hn
      intro t ht cx cy hx hy
      have e : cx = now := by
        simp only [createTask] at hx
        exact (Option.some.inj hx).symm
      rw [e]
      exact hclock t ht cy hy
    · intro t ht
      rcases List.mem_cons.1 ht with rfl | ht
      · exact ⟨hv.1, by simp [Task.ValidCreated, createTask], hv.2⟩
      · exact hwf t ht
  | edit editingId taskData =>
    simp only [applyMutation, handleEditTask]
    constructor
    · refine newestFirst_map _ ?_ tasks hn
      intro t
      by_cases h : t.id = editingId <;> simp [h]
    · intro t ht
      obtain ⟨u, hu, rfl⟩ := List.mem_map.1 ht
      by_cases h : u.id = editingId
      · rw [if_pos h]
        exact ⟨hm.1, (hwf u hu).2.1, hm.2⟩
      · rw [if_neg h]
        exact hwf u hu
  | toggleComplete taskId now =>
    simp only [applyMutation, handleToggleComplete]
    constructor
    · refine newestFirst_map _ ?_ tasks hn
      intro t
      by_cases h : t.id = taskId <;> simp [h]
    · intro t ht
      obtain ⟨u, hu, rfl⟩ := List.mem_map.1 ht
      by_cases h : u.id = taskId
      · rw [if_pos h]
        exact hwf u hu
      · rw [if_neg h]
        exact hwf u hu
  | delete taskId =>
    simp only [applyMutation, handleDeleteTask]
    exact ⟨hn.sublist (List.filter_sublist _), fun t ht => hwf t (List.mem_filter.1 ht).1⟩
  | clearCompleted confirmed =>
    simp only [applyMutation, handleClearCompleted]
    split_ifs
    · exact ⟨hn, hwf⟩
    · exact ⟨hn.sublist (List.filter_sublist _), fun t ht => hwf t (List.mem_filter.1 ht).1⟩
    · exact ⟨hn, hwf⟩

theorem applyMutations_newestFirst (tasks : List Task) (ms : List Mutation)
    (hn : NewestFirst tasks) (hwf : ∀ t ∈ tasks, t.WellFormed) (hm : AdmissibleFrom tasks ms) :
    NewestFirst (applyMutations tasks ms) ∧ ∀ t ∈ applyMutations tasks ms, t.WellFormed := by
  induction ms generalizing tasks with
  | nil => exact ⟨hn, hwf⟩
  | cons m ms ih =>
    have h := applyMutation_newestFirst tasks m hn hwf hm.1
    exact ih (applyMutation tasks m) h.1 h.2 hm.2

/-- C7. In smart mode two tasks of one completion state, one priority and one due
instant come out with the one created later first: for every collection in the order
of creation, newest first, of well-formed tasks.  The controller keeps that order,
starting from the empty collection, through every sequence of add, edit,
toggleComplete, delete and clearCompleted whose adds do not run on a clock behind the
creation time of a task, and the filter and the search keep it, so the displayed list in
smart mode has the tie broken by creation time, newest first. -/
theorem smart_tie_newest_first :
    (∀ tasks : List Task, NewestFirst tasks → (∀ t ∈ tasks, t.WellFormed) →
      (sortTasks tasks).Pairwise SmartTieOrdered) ∧
    (∀ (tasks : List Task) (ms : List Mutation), NewestFirst tasks →
      (∀ t ∈ tasks, t.WellFormed) → AdmissibleFrom tasks ms →
      NewestFirst (applyMutations tasks ms) ∧ ∀ t ∈ applyMutations tasks ms, t.WellFormed) ∧
    (∀ (rt : Runtime) (tasks : List Task) (activeFilter searchQuery : String),
      NewestFirst tasks →
      NewestFirst (searchTasks rt (filterTasks tasks activeFilter) searchQuery)) ∧
    (∀ (rt : Runtime) (ms : List Mutation) (activeFilter searchQuery : String),
      AdmissibleFrom [] ms →
      (updateFilteredTasks rt (applyMutations [] ms) activeFilter searchQuery "smart").Pairwise
        SmartTieOrdered) := by
  have hsort : ∀ tasks : List Task, NewestFirst tasks → (∀ t ∈ tasks, t.WellFormed) →
      (sortTasks tasks).Pairwise SmartTieOrdered := by
    intro tasks hn hwf
    refine (sortTasks_ties_newestFirst tasks hn hwf).imp_of_mem ?_
    intro x y hx _ hxy hc hp d hdx hdy
    have hwx : x.WellFormed := hwf x ((mem_jsSort _).1 hx)
    have hyx : NotAfter smartCompare y x := by
      unfold NotAfter
      rw [smartCompare_tie x y hwx hc hp d hdx hdy]
      decide
    exact hxy.2 hyx
  have hview : ∀ (rt : Runtime) (tasks : List Task) (activeFilter searchQuery : String),
      (searchTasks rt (filterTasks tasks activeFilter) searchQuery).Sublist tasks :=
    fun rt tasks activeFilter searchQuery =>
      (searchTasks_sublist rt _ searchQuery).trans (filterTasks_sublist tasks activeFilter)
  refine ⟨hsort, applyMutations_newestFirst, ?_, ?_⟩
  · intro rt tasks activeFilter searchQuery hn
    exact hn.sublist (hview rt tasks activeFilter searchQuery)
  · intro rt ms activeFilter searchQuery hm
    have h := applyMutations_newestFirst [] ms List.Pairwise.nil
      (fun t ht => absurd ht (List.not_mem_nil t)) hm
    have hsub := hview rt (applyMutations [] ms) activeFilter searchQuery
    have e : updateFilteredTasks rt (applyMutations [] ms) activeFilter searchQuery "smart" =
        sortTasks (searchTasks rt (filterTasks (applyMutations [] ms) activeFilter)
          searchQuery) := by
      simp [updateFilteredTasks, sortTasksBy]
    rw [e]
    exact hsort _ (h.1.sublist hsub) (fun t ht => h.2 t (hsub.subset ht))

theorem smart_tie_newest_first_witness :
    AdmissibleFrom [] sampleAdds ∧
    (updateFilteredTasks asciiRuntime (applyMutations [] sampleAdds) "all" "" "smart").Pairwise
      SmartTieOrdered ∧
    (updateFilteredTasks asciiRuntime (applyMutations [] sampleAdds) "all" "" "smart").map
      (fun t => (t.id, t.createdAt)) = [("t2", some 2000), ("t1", some 1000)] :=
  ⟨⟨⟨⟨by decide, by decide⟩, fun _ h => absurd h (List.not_mem_nil _)⟩,
      ⟨⟨by decide, by decide⟩, fun t ht c hc => by
        have e : t = createTask "t1" 1000 "Pay rent" (some "") (some (some (some 5000)))
            (some "high") := List.mem_singleton.1 ht
        subst e
        have e2 : c = 1000 := (Option.some.inj hc).symm
        subst e2
        decide⟩,
      trivial⟩,
    smart_tie_newest_first.2.2.2 asciiRuntime sampleAdds "all" "" (by
      refine ⟨⟨⟨by decide, by decide⟩, fun _ h => absurd h (List.not_mem_nil _)⟩,
        ⟨⟨by decide, by decide⟩, fun t ht c hc => ?_⟩, trivial⟩
      have e : t = createTask "t1" 1000 "Pay rent" (some "") (some (some (some 5000)))
          (some "high") := List.mem_singleton.1 ht
      subst e
      have e2 : c = 1000 := (Option.some.inj hc).symm
      subst e2
      decide),
    by decide⟩

/-! ## Idempotence -/

/-- C8. For the modes `smart`, `priority`, `dueDate` and `created` and a collection of
well-formed tasks, sorting the sorted collection again in the same mode returns it
unchanged. -/
theorem sortTasksBy_idempotent (rt : Runtime) (tasks : List Task) (m : String)
    (hm : m = "smart" ∨ m = "priority" ∨ m = "dueDate" ∨ m = "created")
    (hwf : ∀ t ∈ tasks, t.WellFormed) :
    sortTasksBy rt (sortTasksBy rt tasks m) m = sortTasksBy rt tasks m := by
  rcases hm with rfl | rfl | rfl | rfl
  · have e : ∀ l, sortTasksBy rt l "smart" = jsSort smartCompare l := fun l => by
      simp [sortTasksBy, sortTasks]
    rw [e, e]
    exact jsSort_idempotent smartCompare Task.WellFormed smartCompare_total smartCompare_trans
      tasks hwf
  · have e : ∀ l, sortTasksBy rt l "priority" = jsSort priorityCompare l := fun l => by
      simp [sortTasksBy, sortTasksByPriority]
    rw [e, e]
    exact jsSort_idempotent priorityCompare (fun t => t.ValidPriority ∧ t.ValidCreated)
      priorityCompare_total priorityCompare_trans tasks
      (fun t ht => ⟨(hwf t ht).1, (hwf t ht).2.1⟩)
  · have e : ∀ l, sortTasksBy rt l "dueDate" = jsSort dueDateCompare l := fun l => by
      simp [sortTasksBy, sortTasksByDueDate]
    rw [e, e]
    exact jsSort_idempotent dueDateCompare (fun t => t.ValidCreated ∧ t.ValidDue)
      dueDateCompare_total dueDateCompare_trans tasks (fun t ht => (hwf t ht).2)
  · have e : ∀ l, sortTasksBy rt l "created" = jsSort createdCompare l := fun l => by
      simp [sortTasksBy, sortTasksByCreated]
    rw [e, e]
    exact jsSort_idempotent createdCompare Task.ValidCreated
      createdCompare_total createdCompare_trans tasks (fun t ht => (hwf t ht).2.1)

theorem sortTasksBy_idempotent_witness :
    ("dueDate" = "smart" ∨ "dueDate" = "priority" ∨ "dueDate" = "dueDate" ∨
      "dueDate" = "created") ∧
    (∀ t ∈ sampleTasks, t.WellFormed) ∧
    sortTasksBy asciiRuntime (sortTasksBy asciiRuntime sampleTasks "dueDate") "dueDate" =
      sortTasksBy asciiRuntime sampleTasks "dueDate" :=
  ⟨by decide, by decide,
    sortTasksBy_idempotent asciiRuntime sampleTasks "dueDate" (by decide) (by decide)⟩

/-! ## Due-date and priority sorts -/

/-- C9. In the `dueDate` sort of a collection with valid timestamps, two tasks `x`
before `y` of one completion state satisfy: `y` has no due date that `x` lacks; when
both have one the due instant of `x` is not later; and when the due dates are equal or
both absent, `x` was not created earlier than `y`. -/
theorem sortTasksByDueDate_order (tasks : List Task)
    (hv : ∀ t ∈ tasks, t.ValidCreated ∧ t.ValidDue) :
    (sortTasksByDueDate tasks).Pairwise DueDateOrdered := by
  have hsorted : (sortTasksByDueDate tasks).Pairwise (NotAfter dueDateCompare) :=
    pairwise_jsSort dueDateCompare (NotAfter dueDateCompare)
      (fun t => t.ValidCreated ∧ t.ValidDue)
      (fun _ _ _ _ h => h) dueDateCompare_total dueDateCompare_trans tasks hv
  refine hsorted.imp_of_mem ?_
  intro a b ha hb hab
  exact dueDateCompare_ordered a b (hv a ((mem_jsSort _).1 ha)) (hv b ((mem_jsSort _).1 hb)) hab

theorem sortTasksByDueDate_order_witness :
    (∀ t ∈ sampleTasks, t.ValidCreated ∧ t.ValidDue) ∧
    (sortTasksByDueDate sampleTasks).Pairwise DueDateOrdered :=
  ⟨by decide, sortTasksByDueDate_order sampleTasks (by decide)⟩

/-- The sort commutes with a map that leaves every comparison unchanged. -/
theorem orderedInsert_map {α β : Type} (f : α → β) (cmpA : α → α → JsNumber)
    (cmpB : β → β → JsNumber) (hf : ∀ x y, cmpB (f x) (f y) = cmpA x y) (a : α) (l : List α) :
    orderedInsert cmpB (f a) (l.map f) = (orderedInsert cmpA a l).map f := by
  induction l with
  | nil => rfl
  | cons b l ih =>
    simp only [List.map_cons, orderedInsert, hf]
    split
    · rfl
    · rw [List.map_cons, ih]

theorem jsSort_map {α β : Type} (f : α → β) (cmpA : α → α → JsNumber)
    (cmpB : β → β → JsNumber) (hf : ∀ x y, cmpB (f x) (f y) = cmpA x y) (l : List α) :
    jsSort cmpB (l.map f) = (jsSort cmpA l).map f := by
  induction l with
  | nil => rfl
  | cons a l ih =>
    simp only [List.map_cons, jsSort, ih]
    exact orderedInsert_map f cmpA cmpB hf a _

/-- C10. In the `priority` sort of a collection with valid priorities and creation
timestamps, two tasks `x` before `y` of one completion state have
`priority x ≥ priority y`, and at equal priority `x` was not created earlier than `y`.
Due dates play no role: replacing the due dates of the input in any way replaces them
in the output and moves no task. -/
theorem sortTasksByPriority_order (tasks : List Task) :
    ((∀ t ∈ tasks, t.ValidPriority ∧ t.ValidCreated) →
      (sortTasksByPriority tasks).Pairwise PriorityOrdered) ∧
    (∀ g : Task → Option TimeValue,
      sortTasksByPriority (tasks.map (fun t => { t with dueDate := g t })) =
        (sortTasksByPriority tasks).map (fun t => { t with dueDate := g t })) := by
  constructor
  · intro hv
    have hsorted : (sortTasksByPriority tasks).Pairwise (NotAfter priorityCompare) :=
      pairwise_jsSort priorityCompare (NotAfter priorityCompare)
        (fun t => t.ValidPriority ∧ t.ValidCreated)
        (fun _ _ _ _ h => h) priorityCompare_total priorityCompare_trans tasks hv
    refine hsorted.imp_of_mem ?_
    intro a b ha hb hab
    exact priorityCompare_ordered a b (hv a ((mem_jsSort _).1 ha)) (hv b ((mem_jsSort _).1 hb))
      hab
  · intro g
    exact jsSort_map (fun t => { t with dueDate := g t }) priorityCompare priorityCompare
      (fun x y => rfl) tasks

theorem sortTasksByPriority_order_witness :
    (∀ t ∈ sampleTasks, t.ValidPriority ∧ t.ValidCreated) ∧
    (sortTasksByPriority sampleTasks).Pairwise PriorityOrdered ∧
    sortTasksByPriority (sampleTasks.map (fun t => { t with dueDate := none })) =
      (sortTasksByPriority sampleTasks).map (fun t => { t with dueDate := none }) :=
  ⟨by decide, (sortTasksByPriority_order sampleTasks).1 (by decide),
    (sortTasksByPriority_order sampleTasks).2 (fun _ => none)⟩

/-! ## Temporal predicates -/

theorem fixedOffset_localTime {tz : TimeZone} {off : Int} (h : tz.FixedOffset off) (t : Int) :
    localTime tz t = t + off := by
  simp [localTime, (h t).1]

theorem fixedOffset_utcOfLocal {tz : TimeZone} {off : Int} (h : tz.FixedOffset off) (t : Int) :
    utcOfLocal tz t = t - off := by
  simp [utcOfLocal, (h t).2]

theorem hasSpecificTime_iff (tz : TimeZone) (d : Int) :
    (getHours tz (some d) != some 0 || getMinutes tz (some d) != some 0) = true ↔
      HasExplicitTime tz d := by
  simp [getHours, getMinutes, HasExplicitTime, localHour, localMinute]

theorem setHours_endOfDay (tz : TimeZone) (d : Int) :
    setHours tz (some d) 23 59 59 999 = some (endOfLocalDay tz d) := by
  simp [setHours, endOfLocalDay, endOfDayLocal, localDay, msPerHour, msPerMinute, dayMs]

/-- C11. For an incomplete task due at the instant `d`: when `d` has an explicit time
(local hour or minute not zero) `isTaskOverdue` holds exactly when `d < now`; when it
is date-only, exactly when 23:59:59.999 local time of the due day is before `now`.
That instant reads 23:59:59.999 on the due day where the zone is consistent.  When the
offset in force at `now` is the one of the end of the due day, as in every zone with a
fixed offset, a date-only task is not overdue at any instant of its due day, 23:00
included, and is overdue on every later day. -/
theorem isTaskOverdue_spec (tz : TimeZone) (task : Task) (now d : Int)
    (hc : task.completed = false) (hd : task.dueDate = some (some d)) :
    (HasExplicitTime tz d → (isTaskOverdue tz task now = true ↔ d < now)) ∧
    (¬ HasExplicitTime tz d →
      (isTaskOverdue tz task now = true ↔ endOfLocalDay tz d < now)) ∧
    (tz.offsetAtInstant (endOfLocalDay tz d) = tz.offsetAtLocal (endOfDayLocal tz d) →
      localDay tz (endOfLocalDay tz d) = localDay tz d ∧
      localTime tz (endOfLocalDay tz d) % dayMs = dayMs - 1) ∧
    (tz.offsetAtInstant now = tz.offsetAtLocal (endOfDayLocal tz d) →
      ¬ HasExplicitTime tz d →
        (localDay tz now = localDay tz d → isTaskOverdue tz task now = false) ∧
        (localDay tz d < localDay tz now → isTaskOverdue tz task now = true)) ∧
    (∀ off : Int, tz.FixedOffset off →
      tz.offsetAtInstant (endOfLocalDay tz d) = tz.offsetAtLocal (endOfDayLocal tz d) ∧
      tz.offsetAtInstant now = tz.offsetAtLocal (endOfDayLocal tz d)) := by
  have hexp : HasExplicitTime tz d → (isTaskOverdue tz task now = true ↔ d < now) := by
    intro h
    have h1 := (hasSpecificTime_iff tz d).2 h
    simp only [isTaskOverdue, hd, hc, h1]
    simp [dateLt]
  have hdate : ¬ HasExplicitTime tz d →
      (isTaskOverdue tz task now = true ↔ endOfLocalDay tz d < now) := by
    intro h
    have h1 : (getHours tz (some d) != some 0 || getMinutes tz (some d) != some 0) = false := by
      rw [Bool.eq_false_iff]
      exact fun h2 => h ((hasSpecificTime_iff tz d).1 h2)
    simp only [isTaskOverdue, hd, hc, h1, setHours_endOfDay]
    simp [dateLt]
  refine ⟨hexp, hdate, ?_, ?_, ?_⟩
  · intro hoff
    have e : localTime tz (endOfLocalDay tz d) = localDay tz d * dayMs + (dayMs - 1) := by
      simp only [localTime, hoff]
      simp only [endOfLocalDay, utcOfLocal, endOfDayLocal]
      omega
    constructor
    · show localTime tz (endOfLocalDay tz d) / dayMs = localDay tz d
      rw [e]
      simp only [dayMs]
      omega
    · rw [e]
      simp only [dayMs]
      omega
  · intro hoff h
    have enow : now = localTime tz now - tz.offsetAtLocal (endOfDayLocal tz d) := by
      simp only [localTime, ← hoff]
      omega
    have eend : endOfLocalDay tz d =
        localDay tz d * dayMs + (dayMs - 1) - tz.offsetAtLocal (endOfDayLocal tz d) := by
      simp only [endOfLocalDay, utcOfLocal, endOfDayLocal]
    constructor
    · intro hday
      rw [Bool.eq_false_iff]
      intro hov
      have hlt := (hdate h).1 hov
      rw [eend] at hlt
      simp only [localDay, dayMs] at hday hlt enow
      omega
    · intro hday
      refine (hdate h).2 ?_
      rw [eend]
      simp only [localDay, dayMs] at hday enow ⊢
      omega
  · intro off hoff
    exact ⟨by rw [(hoff _).1, (hoff _).2], by rw [(hoff _).1, (hoff _).2]⟩

theorem isTaskOverdue_spec_witness :
    dateOnlyTask.completed = false ∧ dateOnlyTask.dueDate = some (some sampleMidnight) ∧
    zonePlusTwo.offsetAtInstant (sampleMidnight + 23 * 3600000) =
      zonePlusTwo.offsetAtLocal (endOfDayLocal zonePlusTwo sampleMidnight) ∧
    ¬ HasExplicitTime zonePlusTwo sampleMidnight ∧
    localHour zonePlusTwo (sampleMidnight + 23 * 3600000) = 23 ∧
    localDay zonePlusTwo (sampleMidnight + 23 * 3600000) = localDay zonePlusTwo sampleMidnight ∧
    isTaskOverdue zonePlusTwo dateOnlyTask (sampleMidnight + 23 * 3600000) = false ∧
    localDay zonePlusTwo sampleMidnight < localDay zonePlusTwo (sampleMidnight + 24 * 3600000) ∧
    isTaskOverdue zonePlusTwo dateOnlyTask (sampleMidnight + 24 * 3600000) = true :=
  ⟨rfl, rfl, rfl, by decide, by decide, by decide,
    ((isTaskOverdue_spec zonePlusTwo dateOnlyTask (sampleMidnight + 23 * 3600000) sampleMidnight
      rfl rfl).2.2.2.1 rfl (by decide)).1 (by decide),
    by decide,
    ((isTaskOverdue_spec zonePlusTwo dateOnlyTask (sampleMidnight + 24 * 3600000) sampleMidnight
      rfl rfl).2.2.2.1 rfl (by decide)).2 (by decide)⟩

/-- C12. For an incomplete task due at the instant `d`, `isTaskDueSoon` holds exactly
when `now ≤ d` and `d` is not after the instant three calendar days after `now` at the
same local time, the raw instant being compared at both ends.  When the offset in force
at `now` is the one applied three days later, as in every zone with a fixed offset, that
bound is `now + 3 * dayMs`: `d = now` and `d = now + 3 * dayMs` are due soon, one
millisecond before `now` or after the bound is not. -/
theorem isTaskDueSoon_spec (tz : TimeZone) (task : Task) (now d : Int)
    (hc : task.completed = false) (hd : task.dueDate = some (some d)) :
    (isTaskDueSoon tz task now = true ↔ now ≤ d ∧ d ≤ threeDaysAfter tz now) ∧
    (tz.offsetAtInstant now = tz.offsetAtLocal (localTime tz now + 3 * dayMs) →
      threeDaysAfter tz now = now + 3 * dayMs ∧
      (isTaskDueSoon tz task now = true ↔ now ≤ d ∧ d ≤ now + 3 * dayMs) ∧
      (d = now → isTaskDueSoon tz task now = true) ∧
      (d = now + 3 * dayMs → isTaskDueSoon tz task now = true) ∧
      (d = now - 1 → isTaskDueSoon tz task now = false) ∧
      (d = now + 3 * dayMs + 1 → isTaskDueSoon tz task now = false)) ∧
    (∀ off : Int, tz.FixedOffset off →
      tz.offsetAtInstant now = tz.offsetAtLocal (localTime tz now + 3 * dayMs)) := by
  have hgen : isTaskDueSoon tz task now = true ↔ now ≤ d ∧ d ≤ threeDaysAfter tz now := by
    simp [isTaskDueSoon, hd, hc, addCalendarDays, dateLe, threeDaysAfter]
  refine ⟨hgen, ?_, ?_⟩
  · intro hoff
    have e : threeDaysAfter tz now = now + 3 * dayMs := by
      simp only [threeDaysAfter, utcOfLocal, ← hoff]
      simp only [localTime]
      omega
    have hfix : isTaskDueSoon tz task now = true ↔ now ≤ d ∧ d ≤ now + 3 * dayMs := by
      rw [hgen, e]
    have hpos : (0 : Int) < dayMs := by decide
    refine ⟨e, hfix, ?_, ?_, ?_, ?_⟩
    · intro h
      exact hfix.2 (by omega)
    · intro h
      exact hfix.2 (by omega)
    · intro h
      rw [Bool.eq_false_iff]
      intro hs
      have := hfix.1 hs
      omega
    · intro h
      rw [Bool.eq_false_iff]
      intro hs
      have := hfix.1 hs
      omega
  · intro off hoff
    rw [(hoff _).1, (hoff _).2]

theorem isTaskDueSoon_spec_witness :
    timedTask.completed = false ∧
    timedTask.dueDate = some (some (sampleMidnight + 37800000)) ∧
    zonePlusTwo.offsetAtInstant (sampleMidnight + 37800000 - 3 * dayMs) =
      zonePlusTwo.offsetAtLocal
        (localTime zonePlusTwo (sampleMidnight + 37800000 - 3 * dayMs) + 3 * dayMs) ∧
    sampleMidnight + 37800000 = (sampleMidnight + 37800000 - 3 * dayMs) + 3 * dayMs ∧
    isTaskDueSoon zonePlusTwo timedTask (sampleMidnight + 37800000 - 3 * dayMs) = true :=
  ⟨rfl, rfl, rfl, by decide,
    ((isTaskDueSoon_spec zonePlusTwo timedTask (sampleMidnight + 37800000 - 3 * dayMs)
      (sampleMidnight + 37800000) rfl rfl).2.1 rfl).2.2.2.1 (by decide)⟩

/-- C13. For a task that is completed or has no due date, `isTaskOverdue`,
`isTaskDueToday` and `isTaskDueSoon` are false at every instant and in every zone. -/
theorem predicates_false_without_deadline (tz : TimeZone) (task : Task) (now : Int)
    (h : task.completed = true ∨ task.dueDate = none) :
    isTaskOverdue tz task now = false ∧ isTaskDueToday tz task now = false ∧
    isTaskDueSoon tz task now = false := by
  rcases h with h | h
  · cases hd : task.dueDate <;> simp [isTaskOverdue, isTaskDueToday, isTaskDueSoon, hd, h]
  · simp [isTaskOverdue, isTaskDueToday, isTaskDueSoon, h]

theorem predicates_false_without_deadline_witness :
    (completedTimedTask.completed = true ∨ completedTimedTask.dueDate = none) ∧
    isTaskOverdue zonePlusTwo completedTimedTask (sampleMidnight + 5 * dayMs) = false ∧
    isTaskDueToday zonePlusTwo completedTimedTask (sampleMidnight + 5 * dayMs) = false ∧
    isTaskDueSoon zonePlusTwo completedTimedTask (sampleMidnight + 5 * dayMs) = false :=
  ⟨Or.inl rfl,
    predicates_false_without_deadline zonePlusTwo completedTimedTask (sampleMidnight + 5 * dayMs)
      (Or.inl rfl)⟩

/-- C14, as stated, fails: a completed task due at 10:30 local time has
`taskHasTime` true. -/
theorem taskHasTime_completed_counterexample :
    completedTimedTask.completed = true ∧
    taskHasTime zonePlusTwo completedTimedTask = true ∧
    ¬ (∀ (tz : TimeZone) (task : Task), task.completed = true → taskHasTime tz task = false) := by
  refine ⟨rfl, by decide, ?_⟩
  intro h
  have h1 := h zonePlusTwo completedTimedTask rfl
  have h2 : taskHasTime zonePlusTwo completedTimedTask = true := by decide
  rw [h1] at h2
  exact Bool.false_ne_true h2

/-- C14, amended. `taskHasTime` is false for a task with no due date; for a task due
at the instant `d` it holds exactly when the local hour or minute of `d` is not zero;
the completion flag plays no role. -/
theorem taskHasTime_spec (tz : TimeZone) (task : Task) :
    (task.dueDate = none → taskHasTime tz task = false) ∧
    (∀ d : Int, task.dueDate = some (some d) →
      (taskHasTime tz task = true ↔ HasExplicitTime tz d)) ∧
    (∀ c : Bool, taskHasTime tz { task with completed := c } = taskHasTime tz task) := by
  refine ⟨?_, ?_, ?_⟩
  · intro h
    simp [taskHasTime, h]
  · intro d h
    simp only [taskHasTime, h]
    exact hasSpecificTime_iff tz d
  · intro c
    rfl

theorem taskHasTime_spec_witness :
    completedTimedTask.dueDate = some (some (sampleMidnight + 37800000)) ∧
    HasExplicitTime zonePlusTwo (sampleMidnight + 37800000) ∧
    taskHasTime zonePlusTwo completedTimedTask = true :=
  ⟨rfl, by decide,
    ((taskHasTime_spec zonePlusTwo completedTimedTask).2.1 (sampleMidnight + 37800000) rfl).2
      (by decide)⟩

/-! ## Mutations of the collection -/

/-- Mapping a function over a list relates each element to its image, position by
position. -/
theorem forall₂_map_self {α β : Type} (R : α → β → Prop) (f : α → β) (l : List α)
    (h : ∀ x ∈ l, R x (f x)) : List.Forall₂ R l (l.map f) := by
  induction l with
  | nil => exact List.Forall₂.nil
  | cons a l ih =>
    exact List.Forall₂.cons (h a (List.mem_cons_self _ _))
      (ih (fun x hx => h x (List.mem_cons_of_mem _ hx)))

/-- C15. `handleEditTask` keeps the length and the order of the collection, leaves
every task with another id as it is, and in a task with the edited id takes title,
description, priority and due date from the task data, keeps id, creation time and
completion flag, and keeps `completedAt` when the task is completed and makes it absent
when it is not.  An incomplete task toggled at the instant `now` and then edited in its
title alone is completed with `completedAt = now`. -/
theorem handleEditTask_frame (tasks : List Task) (editingId : String) (taskData : TaskData) :
    (handleEditTask tasks editingId taskData).length = tasks.length ∧
    (handleEditTask tasks editingId taskData).map (fun t => t.id) = tasks.map (fun t => t.id) ∧
    List.Forall₂
      (fun t r => (t.id ≠ editingId → r = t) ∧ (t.id = editingId → EditedFrom taskData t r))
      tasks (handleEditTask tasks editingId taskData) ∧
    (∀ (now : Int) (newTitle : String) (t : Task) (i : Nat),
      tasks[i]? = some t → t.id = editingId → t.completed = false →
      (handleEditTask (handleToggleComplete tasks editingId now) editingId
        { title := newTitle, description := t.description, priority := t.priority
          dueDate := t.dueDate })[i]? =
        some { t with title := newTitle, completed := true, completedAt := some (some now) }) := by
  refine ⟨by simp [handleEditTask], ?_, ?_, ?_⟩
  · simp only [handleEditTask, List.map_map]
    refine List.map_congr_left ?_
    intro t _
    by_cases h : t.id = editingId <;> simp [h]
  · refine forall₂_map_self _ _ tasks ?_
    intro t _
    by_cases h : t.id = editingId
    · simp only [h, if_true]
      refine ⟨fun hne => absurd rfl hne, fun _ => ?_⟩
      cases hc : t.completed <;> simp [EditedFrom, h, hc]
    · dsimp only
      rw [if_neg h]
      exact ⟨fun _ => rfl, fun he => absurd he h⟩
  · intro now newTitle t i hi hid hc
    simp [handleEditTask, handleToggleComplete, List.getElem?_map, hi, hid, hc]

theorem handleEditTask_frame_witness :
    sampleTasks[0]? = some scenarioDone ∧ scenarioDone.id = "D" ∧
    sampleTasks[1]? = some (scenarioC 1000) ∧ (scenarioC 1000).completed = false ∧
    (handleEditTask (handleToggleComplete sampleTasks "C" 7777) "C"
      { title := "Tidy desk", description := (scenarioC 1000).description
        priority := (scenarioC 1000).priority, dueDate := (scenarioC 1000).dueDate })[1]? =
      some { scenarioC 1000 with
        title := "Tidy desk", completed := true, completedAt := some (some 7777) } ∧
    List.Forall₂
      (fun t r => (t.id ≠ "D" → r = t) ∧ (t.id = "D" → EditedFrom sampleTaskData t r))
      sampleTasks (handleEditTask sampleTasks "D" sampleTaskData) :=
  ⟨rfl, rfl, rfl, rfl,
    (handleEditTask_frame sampleTasks "C" sampleTaskData).2.2.2 7777 "Tidy desk" (scenarioC 1000) 1
      rfl rfl rfl,
    (handleEditTask_frame sampleTasks "D" sampleTaskData).2.2.1⟩

/-- C16. `handleToggleComplete` keeps the length and the order of the collection,
leaves every task with another id as it is, and in a task with the given id negates
the completion flag, sets `completedAt` to `now` when the new flag is true and to absent
when it is false, and keeps the other fields.  Toggling twice restores every completion
flag, and a task that was incomplete ends with `completedAt` absent. -/
theorem handleToggleComplete_spec (tasks : List Task) (taskId : String) (now : Int) :
    (handleToggleComplete tasks taskId now).length = tasks.length ∧
    (handleToggleComplete tasks taskId now).map (fun t => t.id) = tasks.map (fun t => t.id) ∧
    List.Forall₂
      (fun t r => (t.id ≠ taskId → r = t) ∧ (t.id = taskId → ToggledFrom now t r))
      tasks (handleToggleComplete tasks taskId now) ∧
    (∀ later : Int,
      List.Forall₂
        (fun t r => r.completed = t.completed ∧ (t.id ≠ taskId → r = t) ∧
          (t.id = taskId → t.completed = false → r.completedAt = none))
        tasks (handleToggleComplete (handleToggleComplete tasks taskId now) taskId later)) := by
  refine ⟨by simp [handleToggleComplete], ?_, ?_, ?_⟩
  · simp only [handleToggleComplete, List.map_map]
    refine List.map_congr_left ?_
    intro t _
    by_cases h : t.id = taskId <;> simp [h]
  · refine forall₂_map_self _ _ tasks ?_
    intro t _
    by_cases h : t.id = taskId
    · simp only [h, if_true]
      refine ⟨fun hne => absurd rfl hne, fun _ => ?_⟩
      cases hc : t.completed <;> simp [ToggledFrom, h, hc]
    · dsimp only
      rw [if_neg h]
      exact ⟨fun _ => rfl, fun he => absurd he h⟩
  · intro later
    simp only [handleToggleComplete, List.map_map]
    refine forall₂_map_self _ _ tasks ?_
    intro t _
    by_cases h : t.id = taskId
    · cases hc : t.completed <;> simp [h, hc]
    · simp [h]

theorem handleToggleComplete_spec_witness :
    List.Forall₂
      (fun t r => (t.id ≠ "C" → r = t) ∧ (t.id = "C" → ToggledFrom 7777 t r))
      sampleTasks (handleToggleComplete sampleTasks "C" 7777) ∧
    (handleToggleComplete sampleTasks "C" 7777)[1]? =
      some { scenarioC 1000 with completed := true, completedAt := some (some 7777) } ∧
    (handleToggleComplete (handleToggleComplete sampleTasks "C" 7777) "C" 8888)[1]? =
      some (scenarioC 1000) :=
  ⟨(handleToggleComplete_spec sampleTasks "C" 7777).2.2.1, by decide, by decide⟩

/-- C17. Once confirmed, `handleClearCompleted` leaves exactly the incomplete tasks
in their order, the count it reports is the number of completed tasks before, and the
remaining tasks are what it saves.  When no task is completed the collection stays as it
is and nothing is saved, confirmed or not. -/
theorem handleClearCompleted_spec (tasks : List Task) :
    (handleClearCompletedEffect tasks true).tasks = tasks.filter (fun t => !t.completed) ∧
    handleClearCompleted tasks true = (handleClearCompletedEffect tasks true).tasks ∧
    (handleClearCompletedEffect tasks true).tasks.Sublist tasks ∧
    (∀ t, t ∈ (handleClearCompletedEffect tasks true).tasks ↔ t ∈ tasks ∧ t.completed = false) ∧
    (handleClearCompletedEffect tasks true).alert.reportedCount =
      (tasks.filter (fun t => t.completed)).length ∧
    ((tasks.filter (fun t => t.completed)).length ≠ 0 →
      (handleClearCompletedEffect tasks true).saved =
        some (tasks.filter (fun t => !t.completed))) ∧
    ((tasks.filter (fun t => t.completed)).length = 0 →
      ∀ confirmed : Bool,
        (handleClearCompletedEffect tasks confirmed).tasks = tasks ∧
        (handleClearCompletedEffect tasks confirmed).saved = none ∧
        (handleClearCompletedEffect tasks confirmed).alert = ClearAlert.noCompletedTasks) := by
  have hzero : (tasks.filter (fun t => t.completed)).length = 0 →
      tasks.filter (fun t => !t.completed) = tasks := by
    intro h
    rw [List.length_eq_zero, List.filter_eq_nil_iff] at h
    rw [List.filter_eq_self]
    intro t ht
    simpa using h t ht
  have htasks : (handleClearCompletedEffect tasks true).tasks =
      tasks.filter (fun t => !t.completed) := by
    unfold handleClearCompletedEffect
    by_cases h : (tasks.filter (fun t => t.completed)).length = 0
    · simp only [h, if_true]
      exact (hzero h).symm
    · simp [h]
  refine ⟨htasks, ?_, ?_, ?_, ?_, ?_, ?_⟩
  · rw [htasks]
    unfold handleClearCompleted
    by_cases h : (tasks.filter (fun t => t.completed)).length = 0
    · simp only [h, if_true]
      exact (hzero h).symm
    · simp [h]
  · rw [htasks]
    exact List.filter_sublist _
  · intro t
    rw [htasks]
    simp [List.mem_filter]
  · unfold handleClearCompletedEffect
    by_cases h : (tasks.filter (fun t => t.completed)).length = 0
    · simp [h, ClearAlert.reportedCount]
    · simp [h, ClearAlert.reportedCount]
  · intro h
    simp [handleClearCompletedEffect, h]
  · intro h confirmed
    simp [handleClearCompletedEffect, h]

theorem handleClearCompleted_spec_witness :
    (sampleTasks.filter (fun t => t.completed)).length ≠ 0 ∧
    (handleClearCompletedEffect sampleTasks true).saved =
      some [scenarioC 1000, scenarioA 1000, scenarioB 1000] ∧
    ([scenarioC 1000].filter (fun t => t.completed)).length = 0 ∧
    (handleClearCompletedEffect [scenarioC 1000] true).tasks = [scenarioC 1000] ∧
    (handleClearCompletedEffect [scenarioC 1000] true).saved = none ∧
    (handleClearCompletedEffect [scenarioC 1000] true).alert = ClearAlert.noCompletedTasks :=
  ⟨by decide, (handleClearCompleted_spec sampleTasks).2.2.2.2.2.1 (by decide), by decide,
    (handleClearCompleted_spec [scenarioC 1000]).2.2.2.2.2.2 (by decide) true⟩

/-- C18. `handleAddTask` puts the new task in front of the unchanged collection.  The
new task is incomplete with `completedAt` absent, has the trimmed title and description,
the priority and due date given, `createdAt` at the instant of the call and the
generated id.  `createTask` takes `medium`, no due date and the empty description for
omitted arguments, and returns a task with the empty title for a blank title. -/
theorem handleAddTask_spec (tasks : List Task) (id : String) (now : Int) (taskData : TaskData) :
    (∃ newTask : Task,
      handleAddTask tasks id now taskData = newTask :: tasks ∧
      newTask.completed = false ∧ newTask.completedAt = none ∧
      newTask.title = trim taskData.title ∧ newTask.description = trim taskData.description ∧
      newTask.priority = taskData.priority ∧ newTask.dueDate = taskData.dueDate ∧
      newTask.createdAt = some now ∧ newTask.id = id) ∧
    (∀ (title : String) (description : Option String) (dueDate : Option (Option TimeValue))
        (priority : Option String),
      (createTask id now title description dueDate priority).completed = false ∧
      (createTask id now title description dueDate priority).completedAt = none ∧
      (createTask id now title description dueDate priority).title = trim title ∧
      (createTask id now title description dueDate priority).createdAt = some now ∧
      (createTask id now title description dueDate priority).priority = priority.getD "medium" ∧
      (createTask id now title description dueDate priority).dueDate = dueDate.getD none ∧
      (createTask id now title description dueDate priority).description =
        trim (description.getD "")) ∧
    (∀ title : String,
      (createTask id now title none none none).priority = "medium" ∧
      (createTask id now title none none none).dueDate = none ∧
      (createTask id now title none none none).description = "") ∧
    (createTask id now "   " none none none).title = "" := by
  refine ⟨⟨_, rfl, rfl, rfl, rfl, rfl, rfl, rfl, rfl, rfl⟩, ?_, ?_, ?_⟩
  · intro title description dueDate priority
    exact ⟨rfl, rfl, rfl, rfl, rfl, rfl, rfl⟩
  · intro title
    refine ⟨rfl, rfl, ?_⟩
    show trim "" = ""
    decide
  · show trim "   " = ""
    decide

/-! ## Persistence -/

/-- C19. When the write succeeds and the JSON codec returns the collection it has
written, `loadTasks` after `saveTasks` returns the saved collection, the empty one
included, whatever was stored before.  `loadTasks` returns the empty collection when no
item is stored and when the read fails. -/
theorem saveTasks_loadTasks_roundtrip (json : JsonCodec) (tasks : List Task)
    (stored : Option String) (h : json.RoundTrips tasks) :
    loadTasks json true (saveTasks json true stored tasks).stored = tasks ∧
    (loadTasks json true (saveTasks json true stored tasks).stored).length = tasks.length ∧
    loadTasks json true none = [] ∧
    (∀ anyStored : Option String, loadTasks json false anyStored = []) := by
  have h1 : loadTasks json true (saveTasks json true stored tasks).stored = tasks := by
    simp [saveTasks, loadTasks, h.1, h.2]
  refine ⟨h1, by rw [h1], rfl, fun _ => rfl⟩

theorem saveTasks_loadTasks_roundtrip_witness :
    sampleJson.RoundTrips sampleTasks ∧
    loadTasks sampleJson true (saveTasks sampleJson true none sampleTasks).stored = sampleTasks ∧
    sampleJson.RoundTrips [] ∧
    loadTasks sampleJson true (saveTasks sampleJson true (some "[D]") []).stored = [] :=
  ⟨by decide, (saveTasks_loadTasks_roundtrip sampleJson sampleTasks none (by decide)).1,
    by decide, (saveTasks_loadTasks_roundtrip sampleJson [] (some "[D]") (by decide)).1⟩

/-- C20. When the write fails `saveTasks` logs the error and its promise resolves,
exactly as after a successful write: the caller observes no difference, and the alert
'Failed to save tasks' of `saveTasksToStorage` is raised in neither case. -/
theorem saveTasks_failure_not_reported (json : JsonCodec) (stored : Option String)
    (tasks : List Task) :
    (saveTasks json false stored tasks).settled = Settled.resolved () ∧
    (saveTasks json false stored tasks).settled = (saveTasks json true stored tasks).settled ∧
    (saveTasks json false stored tasks).errorLogged = true ∧
    (∀ writeSucceeds : Bool,
      (saveTasksToStorage json writeSucceeds stored tasks).failureAlert = false) := by
  refine ⟨rfl, rfl, rfl, ?_⟩
  intro w
  cases w <;> rfl

/-! ## The task form -/

/-- C21. `handleSave` invokes the save callback exactly when the title does not trim
to empty.  For a blank title it raises the alert, produces no task data, and the
collection stays as it is.  Otherwise the task data passed on carries the trimmed title
and the trimmed description, with the priority of the form, and the collection is what
the callback computes from it. -/
theorem handleSave_spec (tz : TimeZone) (form : FormState) :
    ((handleSave tz form).onSave ≠ none ↔ trim form.title ≠ "") ∧
    (trim form.title = "" →
      (handleSave tz form).onSave = none ∧ (handleSave tz form).titleAlert = true ∧
      ∀ (tasks : List Task) (editingTask : Option Task) (id : String) (now : Int),
        collectionAfterSave tz tasks editingTask id now form = tasks) ∧
    (trim form.title ≠ "" →
      ∃ taskData : TaskData,
        (handleSave tz form).onSave = some taskData ∧
        (handleSave tz form).titleAlert = false ∧
        taskData.title = trim form.title ∧
        taskData.description = trim form.description ∧
        taskData.priority = form.priority ∧
        (form.hasDate = false → taskData.dueDate = none) ∧
        ∀ (tasks : List Task) (editingTask : Option Task) (id : String) (now : Int),
          collectionAfterSave tz tasks editingTask id now form =
            handleTaskFormSubmit tasks editingTask id now taskData) := by
  by_cases h : trim form.title = ""
  · refine ⟨?_, ?_, fun hne => absurd h hne⟩
    · simp [handleSave, h]
    · intro _
      refine ⟨by simp [handleSave, h], by simp [handleSave, h], ?_⟩
      intro tasks editingTask id now
      simp [collectionAfterSave, handleSave, h]
  · refine ⟨?_, fun he => absurd he h, ?_⟩
    · simp [handleSave, h]
    · intro _
      have e : (handleSave tz form).onSave = some
          { title := trim form.title
            description := trim form.description
            priority := form.priority
            dueDate :=
              if form.hasDate then
                if !form.hasTime then some (setHours tz (some form.selectedDate) 0 0 0 0)
                else some (some form.selectedDate)
              else none } := by
        simp only [handleSave, h, if_false]
      refine ⟨_, e, by simp [handleSave, h], rfl, rfl, rfl, ?_, ?_⟩
      · intro hd
        simp [hd]
      · intro tasks editingTask id now
        simp only [collectionAfterSave, e]

theorem handleSave_spec_witness :
    trim blankForm.title = "" ∧
    (handleSave zonePlusTwo blankForm).onSave = none ∧
    collectionAfterSave zonePlusTwo sampleTasks none "n1" 5000 blankForm = sampleTasks ∧
    trim filledForm.title ≠ "" ∧
    (∃ taskData : TaskData,
      (handleSave zonePlusTwo filledForm).onSave = some taskData ∧
      (handleSave zonePlusTwo filledForm).titleAlert = false ∧
      taskData.title = trim filledForm.title ∧
      taskData.description = trim filledForm.description ∧
      taskData.priority = filledForm.priority ∧
      (filledForm.hasDate = false → taskData.dueDate = none) ∧
      ∀ (tasks : List Task) (editingTask : Option Task) (id : String) (now : Int),
        collectionAfterSave zonePlusTwo tasks editingTask id now filledForm =
          handleTaskFormSubmit tasks editingTask id now taskData) :=
  ⟨by decide, ((handleSave_spec zonePlusTwo blankForm).2.1 (by decide)).1,
    ((handleSave_spec zonePlusTwo blankForm).2.1 (by decide)).2.2 sampleTasks none "n1" 5000,
    by decide, (handleSave_spec zonePlusTwo filledForm).2.2 (by decide)⟩

/-! ## Permutation -/

/-- C23. For every sort mode and every collection the output of `sortTasksBy` is a
permutation of the input: same length, every task as many times as in the input, and
the same tasks. -/
theorem sortTasksBy_perm (rt : Runtime) (tasks : List Task) (sortBy : String) :
    (sortTasksBy rt tasks sortBy).Perm tasks ∧
    (sortTasksBy rt tasks sortBy).length = tasks.length ∧
    (∀ t : Task, (sortTasksBy rt tasks sortBy).count t = tasks.count t) ∧
    (∀ t : Task, t ∈ sortTasksBy rt tasks sortBy ↔ t ∈ tasks) := by
  have hp : (sortTasksBy rt tasks sortBy).Perm tasks := by
    unfold sortTasksBy
    split_ifs
    · exact perm_jsSort _ _
    · exact perm_jsSort _ _
    · exact perm_jsSort _ _
    · exact perm_jsSort _ _
    · exact perm_jsSort _ _
  exact ⟨hp, hp.length_eq, fun t => hp.count_eq t, fun t => hp.mem_iff⟩

/-! ## Relations between the temporal predicates -/

theorem isTaskOverdue_of_explicit (tz : TimeZone) (task : Task) (now d : Int)
    (hc : task.completed = false) (hd : task.dueDate = some (some d))
    (h : HasExplicitTime tz d) : isTaskOverdue tz task now = true ↔ d < now := by
  have h1 := (hasSpecificTime_iff tz d).2 h
  simp only [isTaskOverdue, hd, hc, h1]
  simp [dateLt]

theorem isTaskOverdue_of_dateOnly (tz : TimeZone) (task : Task) (now d : Int)
    (hc : task.completed = false) (hd : task.dueDate = some (some d))
    (h : ¬ HasExplicitTime tz d) :
    isTaskOverdue tz task now = true ↔ endOfLocalDay tz d < now := by
  have h1 : (getHours tz (some d) != some 0 || getMinutes tz (some d) != some 0) = false := by
    rw [Bool.eq_false_iff]
    exact fun h2 => h ((hasSpecificTime_iff tz d).1 h2)
  simp only [isTaskOverdue, hd, hc, h1, setHours_endOfDay]
  simp [dateLt]

theorem isTaskDueSoon_iff (tz : TimeZone) (task : Task) (now d : Int)
    (hc : task.completed = false) (hd : task.dueDate = some (some d)) :
    isTaskDueSoon tz task now = true ↔ now ≤ d ∧ d ≤ threeDaysAfter tz now := by
  simp [isTaskDueSoon, hd, hc, addCalendarDays, dateLe, threeDaysAfter]

/-- A date-only instant lies in the first minute of its local day. -/
theorem dateOnly_localTime_bound (tz : TimeZone) (d : Int) (h : ¬ HasExplicitTime tz d) :
    localTime tz d < localDay tz d * dayMs + msPerMinute := by
  simp only [HasExplicitTime, localHour, localMinute, not_or, not_not, msPerHour,
    msPerMinute] at h
  simp only [localDay, dayMs, msPerMinute]
  omega

/-- C22. For an incomplete date-only task and an instant `now` of its due day after
the due instant, `isTaskDueToday` is true and `isTaskDueSoon` is false, the raw due
instant being before `now`.  `isTaskOverdue` is false when `now` is not after the end of
its own local day, which holds when the offset in force at `now` is the one of the end
of the day, as in every zone with a fixed offset. -/
theorem dateOnly_on_due_day (tz : TimeZone) (task : Task) (now d : Int)
    (hc : task.completed = false) (hd : task.dueDate = some (some d))
    (hdate : ¬ HasExplicitTime tz d) (hday : localDay tz now = localDay tz d)
    (hafter : d < now) :
    isTaskDueToday tz task now = true ∧
    isTaskDueSoon tz task now = false ∧
    (now ≤ endOfLocalDay tz now → isTaskOverdue tz task now = false) ∧
    (tz.offsetAtInstant now = tz.offsetAtLocal (endOfDayLocal tz d) →
      now ≤ endOfLocalDay tz now ∧ isTaskOverdue tz task now = false) ∧
    (∀ off : Int, tz.FixedOffset off →
      now ≤ endOfLocalDay tz now ∧ isTaskOverdue tz task now = false) := by
  have hend : endOfLocalDay tz now = endOfLocalDay tz d := by
    simp only [endOfLocalDay, endOfDayLocal, hday]
  have hov : now ≤ endOfLocalDay tz now → isTaskOverdue tz task now = false := by
    intro hle
    rw [Bool.eq_false_iff]
    intro h
    have hlt := (isTaskOverdue_of_dateOnly tz task now d hc hd hdate).1 h
    rw [← hend] at hlt
    omega
  have hoff : tz.offsetAtInstant now = tz.offsetAtLocal (endOfDayLocal tz d) →
      now ≤ endOfLocalDay tz now := by
    intro hoff
    have enow : now = localTime tz now - tz.offsetAtLocal (endOfDayLocal tz d) := by
      simp only [localTime, ← hoff]
      omega
    rw [hend]
    simp only [endOfLocalDay, utcOfLocal]
    have hl : localTime tz now ≤ endOfDayLocal tz d := by
      simp only [endOfDayLocal, localDay, dayMs] at hday ⊢
      omega
    omega
  refine ⟨?_, ?_, hov, fun h => ⟨hoff h, hov (hoff h)⟩, ?_⟩
  · simp only [isTaskDueToday, hd, hc, toDateString]
    simp only [localDay] at hday
    simp [hday]
  · rw [Bool.eq_false_iff]
    intro h
    have := (isTaskDueSoon_iff tz task now d hc hd).1 h
    omega
  · intro off hfix
    have h : tz.offsetAtInstant now = tz.offsetAtLocal (endOfDayLocal tz d) := by
      rw [(hfix _).1, (hfix _).2]
    exact ⟨hoff h, hov (hoff h)⟩

theorem dateOnly_on_due_day_witness :
    dateOnlyTask.completed = false ∧ dateOnlyTask.dueDate = some (some sampleMidnight) ∧
    ¬ HasExplicitTime zonePlusTwo sampleMidnight ∧
    localDay zonePlusTwo (sampleMidnight + 1) = localDay zonePlusTwo sampleMidnight ∧
    sampleMidnight < sampleMidnight + 1 ∧
    sampleMidnight + 1 ≤ endOfLocalDay zonePlusTwo (sampleMidnight + 1) ∧
    isTaskDueToday zonePlusTwo dateOnlyTask (sampleMidnight + 1) = true ∧
    isTaskDueSoon zonePlusTwo dateOnlyTask (sampleMidnight + 1) = false ∧
    isTaskOverdue zonePlusTwo dateOnlyTask (sampleMidnight + 1) = false :=
  ⟨rfl, rfl, by decide, by decide, by decide, by decide,
    (dateOnly_on_due_day zonePlusTwo dateOnlyTask (sampleMidnight + 1) sampleMidnight rfl rfl
      (by decide) (by decide) (by decide)).1,
    (dateOnly_on_due_day zonePlusTwo dateOnlyTask (sampleMidnight + 1) sampleMidnight rfl rfl
      (by decide) (by decide) (by decide)).2.1,
    (dateOnly_on_due_day zonePlusTwo dateOnlyTask (sampleMidnight + 1) sampleMidnight rfl rfl
      (by decide) (by decide) (by decide)).2.2.1 (by decide)⟩

/-- C24. `isTaskOverdue` and `isTaskDueSoon` are never both true, and an overdue task
has its raw due instant before `now`: outright when the due instant has an explicit
time, and for a date-only due instant when it is not after the end of its own local day.
That holds when the offset at the end of the day is less than 23 h 59 min ahead of the
offset at the due instant, as in every zone with a fixed offset. -/
theorem overdue_dueSoon_exclusive (tz : TimeZone) (task : Task) (now : Int) :
    ((∀ d : Int, task.dueDate = some (some d) → ¬ HasExplicitTime tz d →
        d ≤ endOfLocalDay tz d) →
      ¬ (isTaskOverdue tz task now = true ∧ isTaskDueSoon tz task now = true) ∧
      (isTaskOverdue tz task now = true → ∃ d : Int, task.dueDate = some (some d) ∧ d < now)) ∧
    (∀ d : Int, task.dueDate = some (some d) → HasExplicitTime tz d →
      ¬ (isTaskOverdue tz task now = true ∧ isTaskDueSoon tz task now = true)) ∧
    (∀ d : Int, ¬ HasExplicitTime tz d →
      tz.offsetAtLocal (endOfDayLocal tz d) - tz.offsetAtInstant d ≤ dayMs - msPerMinute →
      d ≤ endOfLocalDay tz d) ∧
    (∀ off : Int, tz.FixedOffset off → ∀ d : Int,
      tz.offsetAtLocal (endOfDayLocal tz d) - tz.offsetAtInstant d ≤ dayMs - msPerMinute) := by
  refine ⟨?_, ?_, ?_, ?_⟩
  · intro hz
    have hlt : isTaskOverdue tz task now = true →
        ∃ d : Int, task.dueDate = some (some d) ∧ d < now := by
      intro hov
      cases hd : task.dueDate with
      | none => simp [isTaskOverdue, hd] at hov
      | some due =>
        cases hc : task.completed with
        | true => simp [isTaskOverdue, hd, hc] at hov
        | false =>
          cases due with
          | none => simp [isTaskOverdue, hd, hc, getHours, getMinutes, dateLt] at hov
          | some d =>
            refine ⟨d, rfl, ?_⟩
            by_cases hx : HasExplicitTime tz d
            · exact (isTaskOverdue_of_explicit tz task now d hc hd hx).1 hov
            · have hend := (isTaskOverdue_of_dateOnly tz task now d hc hd hx).1 hov
              have ho := hz d hd hx
              omega
    refine ⟨?_, hlt⟩
    rintro ⟨hov, hsoon⟩
    obtain ⟨d, hd, hdn⟩ := hlt hov
    have hc : task.completed = false := by
      cases hc : task.completed with
      | true => simp [isTaskOverdue, hd, hc] at hov
      | false => rfl
    have := (isTaskDueSoon_iff tz task now d hc hd).1 hsoon
    omega
  · rintro d hd hx ⟨hov, hsoon⟩
    have hc : task.completed = false := by
      cases hc : task.completed with
      | true => simp [isTaskOverdue, hd, hc] at hov
      | false => rfl
    have h1 := (isTaskOverdue_of_explicit tz task now d hc hd hx).1 hov
    have h2 := (isTaskDueSoon_iff tz task now d hc hd).1 hsoon
    omega
  · intro d hx ho
    have hb := dateOnly_localTime_bound tz d hx
    simp only [endOfLocalDay, utcOfLocal]
    simp only [endOfDayLocal] at ho ⊢
    simp only [localDay, localTime, dayMs, msPerMinute] at hb ho ⊢
    omega
  · intro off hoff d
    rw [(hoff _).1, (hoff _).2]
    simp only [dayMs, msPerMinute]
    omega

theorem overdue_dueSoon_exclusive_witness :
    (∀ d : Int, dateOnlyTask.dueDate = some (some d) → ¬ HasExplicitTime zonePlusTwo d →
      d ≤ endOfLocalDay zonePlusTwo d) ∧
    isTaskOverdue zonePlusTwo dateOnlyTask (sampleMidnight + 2 * dayMs) = true ∧
    ¬ (isTaskOverdue zonePlusTwo dateOnlyTask (sampleMidnight + 2 * dayMs) = true ∧
      isTaskDueSoon zonePlusTwo dateOnlyTask (sampleMidnight + 2 * dayMs) = true) :=
  ⟨fun d hd _ => by
      have e : d = sampleMidnight := (Option.some.inj (Option.some.inj hd)).symm
      subst e
      decide,
    by decide,
    ((overdue_dueSoon_exclusive zonePlusTwo dateOnlyTask (sampleMidnight + 2 * dayMs)).1
      (fun d hd _ => by
        have e : d = sampleMidnight := (Option.some.inj (Option.some.inj hd)).symm
        subst e
        decide)).1⟩

/-! ## Time until due -/

theorem lastChar_append (a b : String) (h : b ≠ "") : lastChar (a ++ b) = lastChar b := by
  have hb : b.data ≠ [] := by
    intro hb
    apply h
    cases b
    simp_all
  simp only [lastChar, String.data_append]
  rw [List.getLast?_append_of_ne_nil _ hb]

theorem lastChar_overdueText (n : Nat) : lastChar (overdueText n) = some 'e' := by
  unfold overdueText
  rw [lastChar_append _ _ (by decide)]
  decide

theorem lastChar_dueInText (d : Int) : lastChar (dueInText d) = some 's' := by
  unfold dueInText
  rw [lastChar_append _ _ (by decide)]
  decide

theorem ceilDays_neg_iff (ms : Int) : ceilDays ms < 0 ↔ ms ≤ -dayMs := by
  simp only [ceilDays, dayMs]
  omega

theorem ceilDays_zero_iff (ms : Int) : ceilDays ms = 0 ↔ -dayMs < ms ∧ ms ≤ 0 := by
  simp only [ceilDays, dayMs]
  omega

theorem ceilDays_one_iff (ms : Int) : ceilDays ms = 1 ↔ 0 < ms ∧ ms ≤ dayMs := by
  simp only [ceilDays, dayMs]
  omega

theorem getTimeUntilDue_eq (task : Task) (now due : Int)
    (hd : task.dueDate = some (some due)) :
    getTimeUntilDue task now =
      if ceilDays (due - now) < 0 then overdueText (ceilDays (due - now)).natAbs
      else if ceilDays (due - now) = 0 then "Due today"
      else if ceilDays (due - now) = 1 then "Due tomorrow"
      else dueInText (ceilDays (due - now)) := by
  simp only [getTimeUntilDue, hd, dateDiff, numSub, overdueText, dueInText]


theorem overdueText_ne_today (n : Nat) : overdueText n ≠ "Due today" := by
  intro h
  have h1 := congrArg lastChar h
  rw [lastChar_overdueText] at h1
  revert h1
  decide

theorem overdueText_ne_tomorrow (n : Nat) : overdueText n ≠ "Due tomorrow" := by
  intro h
  have h1 := congrArg lastChar h
  rw [lastChar_overdueText] at h1
  revert h1
  decide

theorem overdueText_ne_dueInText (n : Nat) (k : Int) : overdueText n ≠ dueInText k := by
  intro h
  have h1 := congrArg lastChar h
  rw [lastChar_overdueText, lastChar_dueInText] at h1
  revert h1
  decide

theorem dueInText_ne_today (k : Int) : dueInText k ≠ "Due today" := by
  intro h
  have h1 := congrArg lastChar h
  rw [lastChar_dueInText] at h1
  revert h1
  decide

theorem dueInText_ne_tomorrow (k : Int) : dueInText k ≠ "Due tomorrow" := by
  intro h
  have h1 := congrArg lastChar h
  rw [lastChar_dueInText] at h1
  revert h1
  decide

/-- C25. For a task due at the instant `due`, with `d = ceilDays (due - now)` the
least number of days that covers `due - now`: `getTimeUntilDue` returns the overdue text
with `N = -d` exactly when `due` is 24 hours or more before `now`, 'Due today' exactly
when `0 ≤ now - due < 24 h`, 'Due tomorrow' exactly when `0 < due - now ≤ 24 h`, and
'Due in d days' exactly in the remaining case.  The result does not depend on the
completion flag, and only on the difference `due - now`. -/
theorem getTimeUntilDue_spec (task : Task) (now due : Int)
    (hd : task.dueDate = some (some due)) :
    (due - now ≤ ceilDays (due - now) * dayMs ∧
      (ceilDays (due - now) - 1) * dayMs < due - now) ∧
    (dayMs ≤ now - due →
      getTimeUntilDue task now = overdueText (ceilDays (due - now)).natAbs ∧
      ((ceilDays (due - now)).natAbs : Int) = -ceilDays (due - now)) ∧
    ((∃ n : Nat, getTimeUntilDue task now = overdueText n) ↔ dayMs ≤ now - due) ∧
    (getTimeUntilDue task now = "Due today" ↔ 0 ≤ now - due ∧ now - due < dayMs) ∧
    (getTimeUntilDue task now = "Due tomorrow" ↔ 0 < due - now ∧ due - now ≤ dayMs) ∧
    (dayMs < due - now → getTimeUntilDue task now = dueInText (ceilDays (due - now))) ∧
    ((∃ k : Int, getTimeUntilDue task now = dueInText k) ↔ dayMs < due - now) ∧
    (∀ c : Bool, getTimeUntilDue { task with completed := c } now = getTimeUntilDue task now) ∧
    (∀ shift : Int,
      getTimeUntilDue { task with dueDate := some (some (due + shift)) } (now + shift) =
        getTimeUntilDue task now) := by
  have hneg := ceilDays_neg_iff (due - now)
  have hzero := ceilDays_zero_iff (due - now)
  have hone := ceilDays_one_iff (due - now)
  have hceil : due - now ≤ ceilDays (due - now) * dayMs ∧
      (ceilDays (due - now) - 1) * dayMs < due - now := by
    simp only [ceilDays, dayMs]
    omega
  have hshift : ∀ shift : Int,
      getTimeUntilDue { task with dueDate := some (some (due + shift)) } (now + shift) =
        getTimeUntilDue task now := by
    intro shift
    rw [getTimeUntilDue_eq task now due hd,
      getTimeUntilDue_eq { task with dueDate := some (some (due + shift)) } (now + shift)
        (due + shift) rfl]
    have e : due + shift - (now + shift) = due - now := by omega
    rw [e]
  have hcompleted : ∀ c : Bool,
      getTimeUntilDue { task with completed := c } now = getTimeUntilDue task now :=
    fun _ => rfl
  refine ⟨hceil, ?_, ?_, ?_, ?_, ?_, ?_, hcompleted, hshift⟩ <;>
    rw [getTimeUntilDue_eq task now due hd]
  · intro h
    have h1 : ceilDays (due - now) < 0 := hneg.2 (by omega)
    rw [if_pos h1]
    exact ⟨rfl, by omega⟩
  · by_cases h1 : ceilDays (due - now) < 0
    · rw [if_pos h1]
      exact ⟨fun _ => by have := hneg.1 h1; omega, fun _ => ⟨_, rfl⟩⟩
    · have hn : ¬ dayMs ≤ now - due := fun h => h1 (hneg.2 (by omega))
      rw [if_neg h1]
      refine ⟨?_, fun h => absurd h hn⟩
      rintro ⟨n, hn'⟩
      exfalso
      split_ifs at hn'
      · exact overdueText_ne_today n hn'.symm
      · exact overdueText_ne_tomorrow n hn'.symm
      · exact overdueText_ne_dueInText n _ hn'.symm
  · by_cases h1 : ceilDays (due - now) < 0
    · rw [if_pos h1]
      have := hneg.1 h1
      exact ⟨fun h => absurd h (overdueText_ne_today _), fun h => by omega⟩
    · rw [if_neg h1]
      by_cases h2 : ceilDays (due - now) = 0
      · rw [if_pos h2]
        have := hzero.1 h2
        exact ⟨fun _ => by omega, fun _ => rfl⟩
      · rw [if_neg h2]
        have hn : ¬ (0 ≤ now - due ∧ now - due < dayMs) := fun h => h2 (hzero.2 (by omega))
        refine ⟨fun h => ?_, fun h => absurd h hn⟩
        exfalso
        split_ifs at h
        · revert h; decide
        · exact dueInText_ne_today _ h
  · by_cases h1 : ceilDays (due - now) < 0
    · rw [if_pos h1]
      have := hneg.1 h1
      have hpos : (0 : Int) < dayMs := by decide
      exact ⟨fun h => absurd h (overdueText_ne_tomorrow _), fun h => by omega⟩
    · rw [if_neg h1]
      by_cases h2 : ceilDays (due - now) = 0
      · rw [if_pos h2]
        have := hzero.1 h2
        exact ⟨fun h => absurd h (by decide), fun h => by omega⟩
      · rw [if_neg h2]
        by_cases h3 : ceilDays (due - now) = 1
        · rw [if_pos h3]
          exact ⟨fun _ => hone.1 h3, fun _ => rfl⟩
        · rw [if_neg h3]
          exact ⟨fun h => absurd h (dueInText_ne_tomorrow _), fun h => absurd (hone.2 h) h3⟩
  · intro h
    have hpos : (0 : Int) < dayMs := by decide
    have h1 : ¬ ceilDays (due - now) < 0 := fun h1 => by have := hneg.1 h1; omega
    have h2 : ¬ ceilDays (due - now) = 0 := fun h2 => by have := hzero.1 h2; omega
    have h3 : ¬ ceilDays (due - now) = 1 := fun h3 => by have := hone.1 h3; omega
    rw [if_neg h1, if_neg h2, if_neg h3]
  · have hpos : (0 : Int) < dayMs := by decide
    by_cases h1 : ceilDays (due - now) < 0
    · rw [if_pos h1]
      have := hneg.1 h1
      exact ⟨fun ⟨k, hk⟩ => absurd hk (overdueText_ne_dueInText _ k), fun h => by omega⟩
    · rw [if_neg h1]
      by_cases h2 : ceilDays (due - now) = 0
      · rw [if_pos h2]
        have := hzero.1 h2
        exact ⟨fun ⟨k, hk⟩ => absurd hk.symm (dueInText_ne_today k), fun h => by omega⟩
      · rw [if_neg h2]
        by_cases h3 : ceilDays (due - now) = 1
        · rw [if_pos h3]
          have := hone.1 h3
          exact ⟨fun ⟨k, hk⟩ => absurd hk.symm (dueInText_ne_tomorrow k), fun h => by omega⟩
        · rw [if_neg h3]
          refine ⟨fun _ => ?_, fun _ => ⟨_, rfl⟩⟩
          have a1 : ¬ (due - now ≤ -dayMs) := fun h => h1 (hneg.2 h)
          have a2 : ¬ (-dayMs < due - now ∧ due - now ≤ 0) := fun h => h2 (hzero.2 h)
          have a3 : ¬ (0 < due - now ∧ due - now ≤ dayMs) := fun h => h3 (hone.2 h)
          omega

theorem getTimeUntilDue_spec_witness :
    timedTask.dueDate = some (some (sampleMidnight + 37800000)) ∧
    (0 < sampleMidnight + 37800000 - (sampleMidnight + 30600000) ∧
      sampleMidnight + 37800000 - (sampleMidnight + 30600000) ≤ dayMs) ∧
    getTimeUntilDue timedTask (sampleMidnight + 30600000) = "Due tomorrow" ∧
    dayMs ≤ sampleMidnight + 37800000 + 2 * dayMs - (sampleMidnight + 37800000) ∧
    getTimeUntilDue timedTask (sampleMidnight + 37800000 + 2 * dayMs) = "2 days overdue" :=
  ⟨rfl, by decide,
    (getTimeUntilDue_spec timedTask (sampleMidnight + 30600000) (sampleMidnight + 37800000)
      rfl).2.2.2.2.1.2 (by decide),
    by decide,
    ((getTimeUntilDue_spec timedTask (sampleMidnight + 37800000 + 2 * dayMs)
      (sampleMidnight + 37800000) rfl).2.1 (by decide)).1⟩

end TaskManager
